import Mathlib

/-!
Verification of the hroma front end (lexer + recursive-descent parser).

The development shallowly embeds `src/lexer.rs` and `src/parser.rs`.
The lexer is modelled at the character level with the same state as the
Rust struct (`input`, `position`, `line`, `column`); its `while` loops are
written as fuel-indexed helper functions whose fuel is initialised to
`input.length - position` (each loop iteration advances `position` by at
least one, so this bound never truncates an iteration the Rust code would
have run).  A Rust `panic!` (including a failing `unwrap`) is modelled as
`none` / an error result: the claims under study never distinguish panic
messages, only whether the pipeline fails.
-/

namespace Hroma

/-- Token type of `src/lexer.rs` (`enum Token`).  `FloatLiteral` carries the
exact decimal value as a rational instead of an `f64`: every numeric claim
in scope involves values (such as `42.0`) on which the IEEE-754 rounding of
`f64` is the identity, so rounding is not modelled.  `IntegerLiteral`
carries `Int`, with the 32-bit bound enforced at parse time (see
`rustParseI32`). -/
inductive Token where
  | IntegerLiteral : Int → Token
  | FloatLiteral : Rat → Token
  | StringLiteral : String → Token
  | Ident : String → Token
  | TypeIdent : String → Token
  | KeywordLet : Token
  | KeywordLetBang : Token
  | KeywordType : Token
  | KeywordMatch : Token
  | KeywordOf : Token
  | KeywordDefault : Token
  | Equal : Token
  | Colon : Token
  | Arrow : Token
  | LeftCurly : Token
  | RightCurly : Token
  | LeftParen : Token
  | RightParen : Token
  | Comma : Token
  | Underscore : Token
  | EOI : Token
deriving DecidableEq, Repr

/-- The `enum Type` of `src/parser.rs` (renamed: `Type` is a Lean keyword). -/
inductive Ty where
  | Int : Ty
  | Float : Ty
  | String : Ty
deriving DecidableEq, Repr

/-- The `enum Expr` of `src/parser.rs`.  Field conventions as in `Token`. -/
inductive Expr where
  | IntLiteral : Int → Expr
  | FloatLiteral : Rat → Expr
  | StringLiteral : String → Expr
  | Call : String → List Expr → Expr

/-- The `enum Function` of `src/parser.rs`.  Positional fields are, in
order: `name`, `params`, `body`, `return_expr`. -/
inductive Function where
  | LinFunc : String → List (String × Ty) → List Function → List Expr → Function
  | NonlinFunc : String → List (String × Ty) → List Function → List Expr → Function

/-- Discriminates the `NonlinFunc` variant of `Function`. -/
def isNonlinFunc : Function → Bool
  | Function.NonlinFunc _ _ _ _ => true
  | Function.LinFunc _ _ _ _ => false

/-- ASCII fragment of Rust `char::is_whitespace` (Unicode `White_Space`).
Non-ASCII whitespace is not modelled; no claim involves it. -/
def rustIsWhitespace (c : Char) : Bool :=
  c = ' ' || c = '\t' || c = '\n' || c = '\r' || c = '\x0b' || c = '\x0c'

/-- Rust `char::is_ascii_digit`. -/
def isAsciiDigit (c : Char) : Bool :=
  '0' ≤ c && c ≤ '9'

/-- Rust `char::is_ascii_alphabetic`. -/
def isAsciiAlphabetic (c : Char) : Bool :=
  ('a' ≤ c && c ≤ 'z') || ('A' ≤ c && c ≤ 'Z')

/-- ASCII fragment of Rust `char::is_uppercase`; in `read_word` it is only
ever applied to an ASCII letter, where the two agree. -/
def isAsciiUppercase (c : Char) : Bool :=
  'A' ≤ c && c ≤ 'Z'

/-- The `Lexer` struct of `src/lexer.rs`. -/
structure Lexer where
  input : List Char
  position : Nat
  line : Nat
  column : Nat
deriving DecidableEq, Repr

/-- `Lexer::new`. -/
def mkLexer (s : String) : Lexer :=
  ⟨s.data, 0, 1, 1⟩

/-- The character under the cursor, `input[position]` (total; only read
behind bounds checks, as in the Rust indexing). -/
def charAt (st : Lexer) : Char :=
  st.input.getD st.position ' '

/-- `Lexer::advance`: newline bumps `line` and resets `column`, anything
else bumps `column`; `position` always moves one ahead. -/
def advance (st : Lexer) : Lexer :=
  if st.position < st.input.length ∧ charAt st = '\n' then
    { st with line := st.line + 1, column := 1, position := st.position + 1 }
  else
    { st with column := st.column + 1, position := st.position + 1 }

/-- `Lexer::peek`: character one past the cursor, `'\0'` at the end. -/
def peek (st : Lexer) : Char :=
  if st.position + 1 < st.input.length then st.input.getD (st.position + 1) '\x00'
  else '\x00'

/-- Value of a digit string, most significant digit first. -/
def digitsVal (s : List Char) : Nat :=
  s.foldl (fun a c => 10 * a + (c.toNat - 48)) 0

/-- Models `str::parse::<i32>()` followed by `unwrap()` on the strings
`read_number` produces (a non-empty run of ASCII digits; no sign): the
parse succeeds exactly when the value fits in an `i32`, and a failing
`unwrap` is a panic, i.e. `none`. -/
def rustParseI32 (s : List Char) : Option Int :=
  if s ≠ [] ∧ s.all isAsciiDigit ∧ digitsVal s ≤ 2147483647 then
    some (digitsVal s : Int)
  else none

/-- Models `str::parse::<f64>()` followed by `unwrap()` on the strings the
float branch of `read_number` produces: `Digit+ '.' Digit*`.  The grammar
documented for `f64::from_str` is
`Number ::= Digit+ | Digit+ '.' Digit* | Digit* '.' Digit+ (Exp)?`, and its
examples explicitly include `"5."`; so every string of this shape parses,
including one with no digits after the point.  The value is the exact
decimal rational (IEEE-754 rounding and overflow-to-infinity are not
modelled; no claim depends on a value they would change). -/
def rustParseF64 (s : List Char) : Option Rat :=
  let ip := s.takeWhile (fun c => c ≠ '.')
  match s.dropWhile (fun c => c ≠ '.') with
  | '.' :: fp =>
    if ip ≠ [] ∧ ip.all isAsciiDigit ∧ fp.all isAsciiDigit then
      some ((digitsVal ip : Rat) + (digitsVal fp : Rat) / ((10 : Rat) ^ fp.length))
    else none
  | _ => none

/-- Rust slice `input[a..b]` of a character vector. -/
def slice (l : List Char) (a b : Nat) : List Char :=
  (l.drop a).take (b - a)

/-- The digit-consuming `while` loop of `read_number` (used for both the
integer part and the fractional part). -/
def readDigitsGo : Nat → Lexer → Lexer
  | 0, st => st
  | fuel + 1, st =>
    if st.position < st.input.length ∧ isAsciiDigit (charAt st) = true then
      readDigitsGo fuel (advance st)
    else st

/-- `Lexer::read_number`. -/
def read_number (st : Lexer) : Option (Token × Lexer) :=
  let start := st.position
  let st1 := readDigitsGo (st.input.length - st.position) st
  if st1.position < st1.input.length ∧ charAt st1 = '.' then
    let st2 := advance st1
    let st3 := readDigitsGo (st2.input.length - st2.position) st2
    match rustParseF64 (slice st3.input start st3.position) with
    | some q => some (Token.FloatLiteral q, st3)
    | none => none
  else
    match rustParseI32 (slice st1.input start st1.position) with
    | some n => some (Token.IntegerLiteral n, st1)
    | none => none

/-- The word-consuming `while` loop of `read_word` (letters, digits and
underscores). -/
def readWordGo : Nat → Lexer → Lexer
  | 0, st => st
  | fuel + 1, st =>
    if st.position < st.input.length then
      let c := charAt st
      if isAsciiAlphabetic c = false ∧ c ≠ '_' ∧ isAsciiDigit c = false then st
      else readWordGo fuel (advance st)
    else st

/-- `Lexer::read_word`.  The empty-word case returns `none`: there the Rust
code would panic on `word.chars().next().unwrap()` (it is unreachable from
`next_token`, which only calls `read_word` on a letter). -/
def read_word (st : Lexer) : Option (Token × Lexer) :=
  let start := st.position
  let st1 := readWordGo (st.input.length - st.position) st
  let word := slice st1.input start st1.position
  if word = ['l', 'e', 't'] ∧ st1.position < st1.input.length ∧
      charAt st1 = '!' then
    some (Token.KeywordLetBang, advance st1)
  else if word = ['l', 'e', 't'] then some (Token.KeywordLet, st1)
  else if word = ['t', 'y', 'p', 'e'] then some (Token.KeywordType, st1)
  else if word = ['m', 'a', 't', 'c', 'h'] then some (Token.KeywordMatch, st1)
  else if word = ['o', 'f'] then some (Token.KeywordOf, st1)
  else if word = ['d', 'e', 'f', 'a', 'u', 'l', 't'] then some (Token.KeywordDefault, st1)
  else
    match word with
    | c :: _ =>
      if isAsciiUppercase c = true then some (Token.TypeIdent (String.mk word), st1)
      else some (Token.Ident (String.mk word), st1)
    | [] => none

/-- The character-consuming `while` loop of `read_string` (everything up to
a closing quote or the end of input). -/
def readStringGo : Nat → Lexer → Lexer
  | 0, st => st
  | fuel + 1, st =>
    if st.position < st.input.length ∧ charAt st ≠ '"' then
      readStringGo fuel (advance st)
    else st

/-- `Lexer::read_string`: skip the opening quote, read to a quote or end of
input, then skip the closing quote if there is one.  Never fails. -/
def read_string (st : Lexer) : Token × Lexer :=
  let st0 := advance st
  let start := st0.position
  let st1 := readStringGo (st0.input.length - st0.position) st0
  let s := slice st1.input start st1.position
  let st2 := if st1.position < st1.input.length then advance st1 else st1
  (Token.StringLiteral (String.mk s), st2)

/-- The comment-skipping inner `while` loop of `skip_whitespace` (runs to
the next newline, exclusive). -/
def skipCommentGo : Nat → Lexer → Lexer
  | 0, st => st
  | fuel + 1, st =>
    if st.position < st.input.length ∧ charAt st ≠ '\n' then
      skipCommentGo fuel (advance st)
    else st

/-- The outer `while` loop of `skip_whitespace`: whitespace is consumed,
`#` starts a line comment, anything else stops the loop. -/
def skipWsGo : Nat → Lexer → Lexer
  | 0, st => st
  | fuel + 1, st =>
    if st.position < st.input.length then
      let c := charAt st
      if rustIsWhitespace c = true then skipWsGo fuel (advance st)
      else if c = '#' then
        skipWsGo fuel (skipCommentGo (st.input.length - st.position) st)
      else st
    else st

/-- `Lexer::skip_whitespace`. -/
def skip_whitespace (st : Lexer) : Lexer :=
  skipWsGo (st.input.length - st.position + 1) st

/-- `Lexer::next_token`.  The dispatch follows the Rust `match` arm by arm;
the two `panic!` arms (bare `'!'` and any unrecognized character) are
`none`. -/
def next_token (st0 : Lexer) : Option (Token × Lexer) :=
  let st := skip_whitespace st0
  if st.input.length ≤ st.position then some (Token.EOI, st)
  else
    let c := charAt st
    if isAsciiDigit c = true then read_number st
    else if isAsciiAlphabetic c = true then read_word st
    else if c = '=' then some (Token.Equal, advance st)
    else if c = ':' then some (Token.Colon, advance st)
    else if c = '-' ∧ peek st = '>' then some (Token.Arrow, advance (advance st))
    else if c = '{' then some (Token.LeftCurly, advance st)
    else if c = '}' then some (Token.RightCurly, advance st)
    else if c = '(' then some (Token.LeftParen, advance st)
    else if c = ')' then some (Token.RightParen, advance st)
    else if c = ',' then some (Token.Comma, advance st)
    else if c = '_' then some (Token.Underscore, advance st)
    else if c = '!' then none
    else if c = '"' then some (read_string st)
    else none

/-- Result of running a fallible, fuel-bounded computation: success, a
modelled panic, or fuel exhaustion.  `oof` never occurs at the fuel bounds
used below (proved for the parser in the termination claim). -/
inductive Res (α : Type) where
  | ok : α → Res α
  | err : Res α
  | oof : Res α
deriving DecidableEq, Repr

/-- The token stream a `Lexer` produces when polled repeatedly, up to (and
excluding) the first end-of-input sentinel; `err` if some poll panics.
Each non-sentinel token consumes at least one character (proved below), so
the fuel `input.length - position + 1` never truncates the stream. -/
def tokenizeGo : Nat → Lexer → Res (List Token)
  | 0, _ => .oof
  | fuel + 1, st =>
    match next_token st with
    | none => .err
    | some (Token.EOI, _) => .ok []
    | some (t, st1) =>
      match tokenizeGo fuel st1 with
      | .ok ts => .ok (t :: ts)
      | r => r

/-- Token stream of a source string. -/
def tokenize (s : String) : Res (List Token) :=
  tokenizeGo (s.data.length + 1) (mkLexer s)

/-!
The parser (`src/parser.rs`).  The Rust `Parser` holds `current_token`,
`peek_token` (always observably `Some`) and the lexer it pulls further
tokens from; `advance` shifts `peek_token` into `current_token` and refills
`peek_token` from the lexer.  Since the lexer is deterministic and
`parse()` both drains it completely on success and does not distinguish one
panic from another, this state is represented by the single token list
`current_token :: peek_token :: remaining lexer output`, on which `advance`
is `List.tail`; once the lexer is exhausted it yields the `EOI` sentinel
forever, which the representation renders by reading the head of the empty
list as `EOI`.

The mutually recursive parsing functions take a fuel argument, decremented
at every recursive call; the termination claim proves that the bound used
by `runParse` is never exhausted.
-/

/-- `self.current_token` of the token-list parser state. -/
def cur (l : List Token) : Token :=
  l.headD Token.EOI

/-- `self.peek_token` of the token-list parser state. -/
def pk (l : List Token) : Token :=
  l.tail.headD Token.EOI

/-- Rust `if let Token::Ident(_) = ...`. -/
def isIdentTok : Token → Bool
  | Token.Ident _ => true
  | _ => false

/-- `Parser::expect`: check the current token and advance past it. -/
def expect (t : Token) (l : List Token) : Option (List Token) :=
  if cur l = t then some l.tail else none

/-- `Parser::parse_ident`: an identifier token or a panic. -/
def parse_ident (l : List Token) : Option (String × List Token) :=
  match cur l with
  | Token.Ident name => some (name, l.tail)
  | _ => none

/-- `Parser::parse_type`: one of the three recognized type names. -/
def parse_type (l : List Token) : Option (Ty × List Token) :=
  match cur l with
  | Token.TypeIdent name =>
    if name = "Int" then some (Ty.Int, l.tail)
    else if name = "Float" then some (Ty.Float, l.tail)
    else if name = "String" then some (Ty.String, l.tail)
    else none
  | _ => none

mutual

/-- `Parser::parse`: top-level `Function`s until the `EOI` sentinel. -/
def parse : Nat → List Token → Res (List Function)
  | 0, _ => .oof
  | fuel + 1, l =>
    if cur l = Token.EOI then .ok []
    else
      match parse_function fuel l with
      | .ok (f, l1) =>
        match parse fuel l1 with
        | .ok fs => .ok (f :: fs)
        | r => r
      | .err => .err
      | .oof => .oof

/-- `Parser::parse_function`: note the leading token is only tested against
`let!` — whatever it is, it is consumed, and the variant defaults to
`LinFunc`. -/
def parse_function : Nat → List Token → Res (Function × List Token)
  | 0, _ => .oof
  | fuel + 1, l =>
    let is_nonlin := cur l = Token.KeywordLetBang
    match parse_ident l.tail with
    | none => .err
    | some (name, l2) =>
      match expect Token.Equal l2 with
      | none => .err
      | some l3 =>
        match parse_function_body fuel l3 with
        | .ok (r, l4) =>
          if is_nonlin then .ok (Function.NonlinFunc name r.1 r.2.1 r.2.2, l4)
          else .ok (Function.LinFunc name r.1 r.2.1 r.2.2, l4)
        | .err => .err
        | .oof => .oof

/-- `Parser::parse_function_body`: lambda-style on `Ident` + `:` lookahead,
otherwise literal body, block body, or fallback expression body. -/
def parse_function_body :
    Nat → List Token → Res ((List (String × Ty) × List Function × List Expr) × List Token)
  | 0, _ => .oof
  | fuel + 1, l =>
    if isIdentTok (cur l) = true ∧ pk l = Token.Colon then
      parse_lambda_style fuel l
    else
      match cur l with
      | Token.IntegerLiteral n => .ok (([], [], [Expr.IntLiteral n]), l.tail)
      | Token.FloatLiteral q => .ok (([], [], [Expr.FloatLiteral q]), l.tail)
      | Token.StringLiteral s => .ok (([], [], [Expr.StringLiteral s]), l.tail)
      | Token.LeftCurly =>
        match expect Token.LeftCurly l with
        | none => .err
        | some l1 =>
          match parse_block_items fuel l1 with
          | .ok (r, l2) =>
            match expect Token.RightCurly l2 with
            | none => .err
            | some l3 => .ok (([], r.1, r.2), l3)
          | .err => .err
          | .oof => .oof
      | _ =>
        match parse_expr fuel l with
        | .ok (e, l1) => .ok (([], [], [e]), l1)
        | .err => .err
        | .oof => .oof

/-- The block `while` loop of `parse_function_body`: until `}` or `EOI`, a
let-keyword starts a nested function (pushed on `body`), anything else is
an expression (pushed on `return_expr`).  The `params` of a block body stay
`[]` in `parse_function_body`. -/
def parse_block_items :
    Nat → List Token → Res ((List Function × List Expr) × List Token)
  | 0, _ => .oof
  | fuel + 1, l =>
    if cur l = Token.RightCurly ∨ cur l = Token.EOI then .ok (([], []), l)
    else if cur l = Token.KeywordLet ∨ cur l = Token.KeywordLetBang then
      match parse_function fuel l with
      | .ok (f, l1) =>
        match parse_block_items fuel l1 with
        | .ok (r, l2) => .ok ((f :: r.1, r.2), l2)
        | .err => .err
        | .oof => .oof
      | .err => .err
      | .oof => .oof
    else
      match parse_expr fuel l with
      | .ok (e, l1) =>
        match parse_block_items fuel l1 with
        | .ok (r, l2) => .ok ((r.1, e :: r.2), l2)
        | .err => .err
        | .oof => .oof
      | .err => .err
      | .oof => .oof

/-- `Parser::parse_lambda_style`: the parameter loop, then `->`, then a
single expression; `body` is always empty. -/
def parse_lambda_style :
    Nat → List Token → Res ((List (String × Ty) × List Function × List Expr) × List Token)
  | 0, _ => .oof
  | fuel + 1, l =>
    match parse_lambda_params fuel l with
    | .ok (params, l1) =>
      match expect Token.Arrow l1 with
      | none => .err
      | some l2 =>
        match parse_expr fuel l2 with
        | .ok (e, l3) => .ok ((params, [], [e]), l3)
        | .err => .err
        | .oof => .oof
    | .err => .err
    | .oof => .oof

/-- The parameter `loop` of `parse_lambda_style`: `name : Type`, continued
by `,`, ended (without consuming) by `->`, anything else panics. -/
def parse_lambda_params :
    Nat → List Token → Res (List (String × Ty) × List Token)
  | 0, _ => .oof
  | fuel + 1, l =>
    match parse_ident l with
    | none => .err
    | some (name, l1) =>
      match expect Token.Colon l1 with
      | none => .err
      | some l2 =>
        match parse_type l2 with
        | none => .err
        | some (ty, l3) =>
          match cur l3 with
          | Token.Comma =>
            match parse_lambda_params fuel l3.tail with
            | .ok (ps, l4) => .ok ((name, ty) :: ps, l4)
            | .err => .err
            | .oof => .oof
          | Token.Arrow => .ok ([(name, ty)], l3)
          | _ => .err

/-- `Parser::parse_expr`: identifier (call or bare), or a literal; any
other token panics. -/
def parse_expr : Nat → List Token → Res (Expr × List Token)
  | 0, _ => .oof
  | fuel + 1, l =>
    match cur l with
    | Token.Ident name =>
      if cur l.tail = Token.LeftParen then
        match parse_call_args fuel l.tail.tail with
        | .ok (args, l2) =>
          match expect Token.RightParen l2 with
          | none => .err
          | some l3 => .ok (Expr.Call name args, l3)
        | .err => .err
        | .oof => .oof
      else .ok (Expr.Call name [], l.tail)
    | Token.IntegerLiteral n => .ok (Expr.IntLiteral n, l.tail)
    | Token.FloatLiteral q => .ok (Expr.FloatLiteral q, l.tail)
    | Token.StringLiteral s => .ok (Expr.StringLiteral s, l.tail)
    | _ => .err

/-- The argument `while` loop of `parse_expr`: until `)`, parse an
expression, then consume a `,` if (and only if) one is present — its
absence is not an error. -/
def parse_call_args : Nat → List Token → Res (List Expr × List Token)
  | 0, _ => .oof
  | fuel + 1, l =>
    if cur l = Token.RightParen then .ok ([], l)
    else
      match parse_expr fuel l with
      | .ok (e, l1) =>
        match parse_call_args fuel (if cur l1 = Token.Comma then l1.tail else l1) with
        | .ok (args, l3) => .ok (e :: args, l3)
        | .err => .err
        | .oof => .oof
      | .err => .err
      | .oof => .oof

end

/-- Fuel that `runParse` hands the parser; proved sufficient below. -/
def parseFuel (ts : List Token) : Nat :=
  9 * ts.length + 9

/-- The whole pipeline: build a lexer over the source, construct a parser
on it and run `parse()`.  A panic anywhere (lexing or parsing) is `err`. -/
def runParse (s : String) : Res (List Function) :=
  match tokenize s with
  | .ok ts => parse (parseFuel ts) ts
  | .err => .err
  | .oof => .oof

/-! ### Basic facts about the lexer state transformers -/

theorem advance_input (st : Lexer) : (advance st).input = st.input := by
  unfold advance; split <;> rfl

theorem advance_position (st : Lexer) : (advance st).position = st.position + 1 := by
  unfold advance; split <;> rfl

theorem skipCommentGo_input (f : Nat) (st : Lexer) :
    (skipCommentGo f st).input = st.input := by
  induction f generalizing st with
  | zero => rfl
  | succ f ih =>
    rw [skipCommentGo]; split
    · rw [ih, advance_input]
    · rfl

theorem skipCommentGo_pos_le (f : Nat) (st : Lexer) :
    st.position ≤ (skipCommentGo f st).position := by
  induction f generalizing st with
  | zero => exact Nat.le_refl _
  | succ f ih =>
    rw [skipCommentGo]; split
    · have h := ih (advance st)
      rw [advance_position] at h
      omega
    · exact Nat.le_refl _

theorem skipWsGo_input (f : Nat) (st : Lexer) : (skipWsGo f st).input = st.input := by
  induction f generalizing st with
  | zero => rfl
  | succ f ih =>
    rw [skipWsGo]; split
    · dsimp only
      split
      · rw [ih, advance_input]
      · split
        · rw [ih, skipCommentGo_input]
        · rfl
    · rfl

theorem skipWsGo_pos_le (f : Nat) (st : Lexer) :
    st.position ≤ (skipWsGo f st).position := by
  induction f generalizing st with
  | zero => exact Nat.le_refl _
  | succ f ih =>
    rw [skipWsGo]; split
    · dsimp only
      split
      · have h := ih (advance st)
        rw [advance_position] at h
        omega
      · split
        · have h1 := ih (skipCommentGo (st.input.length - st.position) st)
          have h2 := skipCommentGo_pos_le (st.input.length - st.position) st
          omega
        · exact Nat.le_refl _
    · exact Nat.le_refl _

theorem skip_whitespace_input (st : Lexer) : (skip_whitespace st).input = st.input :=
  skipWsGo_input _ _

theorem skip_whitespace_pos_le (st : Lexer) :
    st.position ≤ (skip_whitespace st).position :=
  skipWsGo_pos_le _ _

/-- `skip_whitespace` does nothing once the input is exhausted. -/
theorem skip_whitespace_of_exhausted (st : Lexer) (h : st.input.length ≤ st.position) :
    skip_whitespace st = st := by
  unfold skip_whitespace
  rw [Nat.sub_eq_zero_of_le h, skipWsGo, if_neg (by omega)]

/-- `skip_whitespace` does nothing when the cursor sits on a character that
is neither whitespace nor the start of a comment. -/
theorem skip_whitespace_of_solid (st : Lexer) (h1 : st.position < st.input.length)
    (h2 : rustIsWhitespace (charAt st) = false)
    (h3 : charAt st ≠ '#') :
    skip_whitespace st = st := by
  unfold skip_whitespace
  rw [skipWsGo, if_pos h1, if_neg (by simp [h2]), if_neg h3]

theorem readDigitsGo_input (f : Nat) (st : Lexer) :
    (readDigitsGo f st).input = st.input := by
  induction f generalizing st with
  | zero => rfl
  | succ f ih =>
    rw [readDigitsGo]; split
    · rw [ih, advance_input]
    · rfl

theorem readDigitsGo_pos_le (f : Nat) (st : Lexer) :
    st.position ≤ (readDigitsGo f st).position := by
  induction f generalizing st with
  | zero => exact Nat.le_refl _
  | succ f ih =>
    rw [readDigitsGo]; split
    · have h := ih (advance st)
      rw [advance_position] at h
      omega
    · exact Nat.le_refl _

theorem readWordGo_input (f : Nat) (st : Lexer) :
    (readWordGo f st).input = st.input := by
  induction f generalizing st with
  | zero => rfl
  | succ f ih =>
    rw [readWordGo]; split
    · dsimp only
      split
      · rfl
      · rw [ih, advance_input]
    · rfl

theorem readWordGo_pos_le (f : Nat) (st : Lexer) :
    st.position ≤ (readWordGo f st).position := by
  induction f generalizing st with
  | zero => exact Nat.le_refl _
  | succ f ih =>
    rw [readWordGo]; split
    · dsimp only
      split
      · exact Nat.le_refl _
      · have h := ih (advance st)
        rw [advance_position] at h
        omega
    · exact Nat.le_refl _

theorem readStringGo_input (f : Nat) (st : Lexer) :
    (readStringGo f st).input = st.input := by
  induction f generalizing st with
  | zero => rfl
  | succ f ih =>
    rw [readStringGo]; split
    · rw [ih, advance_input]
    · rfl

theorem readStringGo_pos_le (f : Nat) (st : Lexer) :
    st.position ≤ (readStringGo f st).position := by
  induction f generalizing st with
  | zero => exact Nat.le_refl _
  | succ f ih =>
    rw [readStringGo]; split
    · have h := ih (advance st)
      rw [advance_position] at h
      omega
    · exact Nat.le_refl _

/-! ### Input invariance and progress of the token readers -/

theorem read_number_input (st : Lexer) (t : Token) (st' : Lexer)
    (h : read_number st = some (t, st')) : st'.input = st.input := by
  unfold read_number at h
  dsimp only at h
  split at h
  · split at h
    · simp only [Option.some.injEq, Prod.mk.injEq] at h
      obtain ⟨rfl, rfl⟩ := h
      rw [readDigitsGo_input, advance_input, readDigitsGo_input]
    · simp at h
  · split at h
    · simp only [Option.some.injEq, Prod.mk.injEq] at h
      obtain ⟨rfl, rfl⟩ := h
      rw [readDigitsGo_input]
    · simp at h

theorem readDigitsGo_pos_lt (f : Nat) (st : Lexer) (hf : 1 ≤ f)
    (h1 : st.position < st.input.length) (h2 : isAsciiDigit (charAt st) = true) :
    st.position < (readDigitsGo f st).position := by
  obtain ⟨g, rfl⟩ : ∃ g, f = g + 1 := ⟨f - 1, by omega⟩
  rw [readDigitsGo, if_pos ⟨h1, h2⟩]
  have hm := readDigitsGo_pos_le g (advance st)
  rw [advance_position] at hm
  omega

theorem read_number_progress (st : Lexer) (t : Token) (st' : Lexer)
    (h1 : st.position < st.input.length) (h2 : isAsciiDigit (charAt st) = true)
    (h : read_number st = some (t, st')) : st.position < st'.position := by
  unfold read_number at h
  dsimp only at h
  have key := readDigitsGo_pos_lt (st.input.length - st.position) st (by omega) h1 h2
  split at h
  · split at h
    · simp only [Option.some.injEq, Prod.mk.injEq] at h
      obtain ⟨rfl, rfl⟩ := h
      have hm2 := readDigitsGo_pos_le
        ((advance (readDigitsGo (st.input.length - st.position) st)).input.length -
          (advance (readDigitsGo (st.input.length - st.position) st)).position)
        (advance (readDigitsGo (st.input.length - st.position) st))
      have hadv := advance_position (readDigitsGo (st.input.length - st.position) st)
      omega
    · simp at h
  · split at h
    · simp only [Option.some.injEq, Prod.mk.injEq] at h
      obtain ⟨rfl, rfl⟩ := h
      omega
    · simp at h

theorem read_number_ne_EOI (st : Lexer) (t : Token) (st' : Lexer)
    (h : read_number st = some (t, st')) : t ≠ Token.EOI := by
  unfold read_number at h
  dsimp only at h
  split at h <;> split at h <;>
    first
      | (simp only [Option.some.injEq, Prod.mk.injEq] at h
         obtain ⟨rfl, rfl⟩ := h
         simp)
      | simp at h

theorem read_word_input (st : Lexer) (t : Token) (st' : Lexer)
    (h : read_word st = some (t, st')) : st'.input = st.input := by
  unfold read_word at h
  dsimp only at h
  split at h
  · simp only [Option.some.injEq, Prod.mk.injEq] at h
    obtain ⟨rfl, rfl⟩ := h
    rw [advance_input, readWordGo_input]
  · split at h
    · simp only [Option.some.injEq, Prod.mk.injEq] at h
      obtain ⟨rfl, rfl⟩ := h
      rw [readWordGo_input]
    · split at h
      · simp only [Option.some.injEq, Prod.mk.injEq] at h
        obtain ⟨rfl, rfl⟩ := h
        rw [readWordGo_input]
      · split at h
        · simp only [Option.some.injEq, Prod.mk.injEq] at h
          obtain ⟨rfl, rfl⟩ := h
          rw [readWordGo_input]
        · split at h
          · simp only [Option.some.injEq, Prod.mk.injEq] at h
            obtain ⟨rfl, rfl⟩ := h
            rw [readWordGo_input]
          · split at h
            · simp only [Option.some.injEq, Prod.mk.injEq] at h
              obtain ⟨rfl, rfl⟩ := h
              rw [readWordGo_input]
            · split at h
              · split at h <;> simp only [Option.some.injEq, Prod.mk.injEq] at h <;>
                  obtain ⟨rfl, rfl⟩ := h <;> rw [readWordGo_input]
              · simp at h

theorem readWordGo_pos_lt (f : Nat) (st : Lexer) (hf : 1 ≤ f)
    (h1 : st.position < st.input.length) (h2 : isAsciiAlphabetic (charAt st) = true) :
    st.position < (readWordGo f st).position := by
  obtain ⟨g, rfl⟩ : ∃ g, f = g + 1 := ⟨f - 1, by omega⟩
  rw [readWordGo, if_pos h1]
  dsimp only
  split
  · rename_i hstop
    simp [h2] at hstop
  · have hm := readWordGo_pos_le g (advance st)
    rw [advance_position] at hm
    omega

theorem read_word_progress (st : Lexer) (t : Token) (st' : Lexer)
    (h1 : st.position < st.input.length) (h2 : isAsciiAlphabetic (charAt st) = true)
    (h : read_word st = some (t, st')) : st.position < st'.position := by
  unfold read_word at h
  dsimp only at h
  have key := readWordGo_pos_lt (st.input.length - st.position) st (by omega) h1 h2
  have hadv := advance_position (readWordGo (st.input.length - st.position) st)
  split at h
  · simp only [Option.some.injEq, Prod.mk.injEq] at h
    obtain ⟨rfl, rfl⟩ := h
    omega
  · split at h
    · simp only [Option.some.injEq, Prod.mk.injEq] at h
      obtain ⟨rfl, rfl⟩ := h
      omega
    · split at h
      · simp only [Option.some.injEq, Prod.mk.injEq] at h
        obtain ⟨rfl, rfl⟩ := h
        omega
      · split at h
        · simp only [Option.some.injEq, Prod.mk.injEq] at h
          obtain ⟨rfl, rfl⟩ := h
          omega
        · split at h
          · simp only [Option.some.injEq, Prod.mk.injEq] at h
            obtain ⟨rfl, rfl⟩ := h
            omega
          · split at h
            · simp only [Option.some.injEq, Prod.mk.injEq] at h
              obtain ⟨rfl, rfl⟩ := h
              omega
            · split at h
              · split at h <;> simp only [Option.some.injEq, Prod.mk.injEq] at h <;>
                  obtain ⟨rfl, rfl⟩ := h <;> omega
              · simp at h

theorem read_word_ne_EOI (st : Lexer) (t : Token) (st' : Lexer)
    (h : read_word st = some (t, st')) : t ≠ Token.EOI := by
  unfold read_word at h
  dsimp only at h
  split at h
  · simp only [Option.some.injEq, Prod.mk.injEq] at h
    obtain ⟨rfl, rfl⟩ := h
    simp
  · split at h
    · simp only [Option.some.injEq, Prod.mk.injEq] at h
      obtain ⟨rfl, rfl⟩ := h
      simp
    · split at h
      · simp only [Option.some.injEq, Prod.mk.injEq] at h
        obtain ⟨rfl, rfl⟩ := h
        simp
      · split at h
        · simp only [Option.some.injEq, Prod.mk.injEq] at h
          obtain ⟨rfl, rfl⟩ := h
          simp
        · split at h
          · simp only [Option.some.injEq, Prod.mk.injEq] at h
            obtain ⟨rfl, rfl⟩ := h
            simp
          · split at h
            · simp only [Option.some.injEq, Prod.mk.injEq] at h
              obtain ⟨rfl, rfl⟩ := h
              simp
            · split at h
              · split at h <;> simp only [Option.some.injEq, Prod.mk.injEq] at h <;>
                  obtain ⟨rfl, rfl⟩ := h <;> simp
              · simp at h

theorem read_string_input (st : Lexer) : (read_string st).2.input = st.input := by
  unfold read_string
  dsimp only
  split
  · rw [advance_input, readStringGo_input, advance_input]
  · rw [readStringGo_input, advance_input]

theorem read_string_progress (st : Lexer) : st.position < (read_string st).2.position := by
  unfold read_string
  dsimp only
  have hm := readStringGo_pos_le ((advance st).input.length - (advance st).position) (advance st)
  have hadv := advance_position st
  split
  · have hadv2 := advance_position
      (readStringGo ((advance st).input.length - (advance st).position) (advance st))
    omega
  · omega

/-! ### `next_token`: input invariance, progress, and the sentinel -/

/-- Exhaustive description of a successful `next_token` call: either the
end-of-input branch fired, or the whitespace-skipped cursor sits on a
character and the token came from the reader or single-advance branch that
character selects. -/
theorem next_token_cases (st : Lexer) (t : Token) (st' : Lexer)
    (h : next_token st = some (t, st')) :
    (t = Token.EOI ∧ st' = skip_whitespace st ∧
        (skip_whitespace st).input.length ≤ (skip_whitespace st).position) ∨
      ((skip_whitespace st).position < (skip_whitespace st).input.length ∧ t ≠ Token.EOI ∧
        ((isAsciiDigit (charAt (skip_whitespace st)) = true ∧
            read_number (skip_whitespace st) = some (t, st')) ∨
          (isAsciiAlphabetic (charAt (skip_whitespace st)) = true ∧
            read_word (skip_whitespace st) = some (t, st')) ∨
          st' = advance (skip_whitespace st) ∨
          st' = advance (advance (skip_whitespace st)) ∨
          (t, st') = read_string (skip_whitespace st))) := by
  unfold next_token at h
  dsimp only at h
  generalize hsw : skip_whitespace st = sw at h ⊢
  by_cases hA : sw.input.length ≤ sw.position
  · rw [if_pos hA] at h
    simp only [Option.some.injEq, Prod.mk.injEq] at h
    obtain ⟨rfl, rfl⟩ := h
    exact Or.inl ⟨rfl, rfl, hA⟩
  · rw [if_neg hA] at h
    have hlt : sw.position < sw.input.length := by omega
    refine Or.inr ⟨hlt, ?_⟩
    by_cases hB : isAsciiDigit (charAt sw) = true
    · rw [if_pos hB] at h
      exact ⟨read_number_ne_EOI _ _ _ h, Or.inl ⟨hB, h⟩⟩
    · rw [if_neg hB] at h
      by_cases hC : isAsciiAlphabetic (charAt sw) = true
      · rw [if_pos hC] at h
        exact ⟨read_word_ne_EOI _ _ _ h, Or.inr (Or.inl ⟨hC, h⟩)⟩
      · rw [if_neg hC] at h
        by_cases hD : charAt sw = '='
        · rw [if_pos hD] at h
          simp only [Option.some.injEq, Prod.mk.injEq] at h
          obtain ⟨rfl, rfl⟩ := h
          exact ⟨by simp, Or.inr (Or.inr (Or.inl rfl))⟩
        · rw [if_neg hD] at h
          by_cases hE : charAt sw = ':'
          · rw [if_pos hE] at h
            simp only [Option.some.injEq, Prod.mk.injEq] at h
            obtain ⟨rfl, rfl⟩ := h
            exact ⟨by simp, Or.inr (Or.inr (Or.inl rfl))⟩
          · rw [if_neg hE] at h
            by_cases hF : charAt sw = '-' ∧ peek sw = '>'
            · rw [if_pos hF] at h
              simp only [Option.some.injEq, Prod.mk.injEq] at h
              obtain ⟨rfl, rfl⟩ := h
              exact ⟨by simp, Or.inr (Or.inr (Or.inr (Or.inl rfl)))⟩
            · rw [if_neg hF] at h
              by_cases hG : charAt sw = '{'
              · rw [if_pos hG] at h
                simp only [Option.some.injEq, Prod.mk.injEq] at h
                obtain ⟨rfl, rfl⟩ := h
                exact ⟨by simp, Or.inr (Or.inr (Or.inl rfl))⟩
              · rw [if_neg hG] at h
                by_cases hH : charAt sw = '}'
                · rw [if_pos hH] at h
                  simp only [Option.some.injEq, Prod.mk.injEq] at h
                  obtain ⟨rfl, rfl⟩ := h
                  exact ⟨by simp, Or.inr (Or.inr (Or.inl rfl))⟩
                · rw [if_neg hH] at h
                  by_cases hI : charAt sw = '('
                  · rw [if_pos hI] at h
                    simp only [Option.some.injEq, Prod.mk.injEq] at h
                    obtain ⟨rfl, rfl⟩ := h
                    exact ⟨by simp, Or.inr (Or.inr (Or.inl rfl))⟩
                  · rw [if_neg hI] at h
                    by_cases hJ : charAt sw = ')'
                    · rw [if_pos hJ] at h
                      simp only [Option.some.injEq, Prod.mk.injEq] at h
                      obtain ⟨rfl, rfl⟩ := h
                      exact ⟨by simp, Or.inr (Or.inr (Or.inl rfl))⟩
                    · rw [if_neg hJ] at h
                      by_cases hK : charAt sw = ','
                      · rw [if_pos hK] at h
                        simp only [Option.some.injEq, Prod.mk.injEq] at h
                        obtain ⟨rfl, rfl⟩ := h
                        exact ⟨by simp, Or.inr (Or.inr (Or.inl rfl))⟩
                      · rw [if_neg hK] at h
                        by_cases hL : charAt sw = '_'
                        · rw [if_pos hL] at h
                          simp only [Option.some.injEq, Prod.mk.injEq] at h
                          obtain ⟨rfl, rfl⟩ := h
                          exact ⟨by simp, Or.inr (Or.inr (Or.inl rfl))⟩
                        · rw [if_neg hL] at h
                          by_cases hM : charAt sw = '!'
                          · rw [if_pos hM] at h
                            simp at h
                          · rw [if_neg hM] at h
                            by_cases hN : charAt sw = '"'
                            · rw [if_pos hN] at h
                              simp only [Option.some.injEq] at h
                              have ht : (read_string sw).1 = t := congrArg Prod.fst h
                              refine ⟨?_, Or.inr (Or.inr (Or.inr (Or.inr h.symm)))⟩
                              rw [← ht]
                              unfold read_string
                              dsimp only
                              simp
                            · rw [if_neg hN] at h
                              simp at h

theorem next_token_input (st : Lexer) (t : Token) (st' : Lexer)
    (h : next_token st = some (t, st')) : st'.input = st.input := by
  have hswi : (skip_whitespace st).input = st.input := skip_whitespace_input st
  rcases next_token_cases st t st' h with ⟨-, rfl, -⟩ | ⟨-, -, hc⟩
  · exact hswi
  · rcases hc with ⟨-, hr⟩ | ⟨-, hr⟩ | rfl | rfl | hr
    · rw [read_number_input _ _ _ hr, hswi]
    · rw [read_word_input _ _ _ hr, hswi]
    · rw [advance_input, hswi]
    · rw [advance_input, advance_input, hswi]
    · have h2 : st' = (read_string (skip_whitespace st)).2 := by rw [← hr]
      rw [h2, read_string_input, hswi]

theorem next_token_progress (st : Lexer) (t : Token) (st' : Lexer)
    (h : next_token st = some (t, st')) (ht : t ≠ Token.EOI) :
    st.position < st'.position := by
  have hswp : st.position ≤ (skip_whitespace st).position := skip_whitespace_pos_le st
  rcases next_token_cases st t st' h with ⟨rfl, -, -⟩ | ⟨hlt, -, hc⟩
  · exact absurd rfl ht
  · rcases hc with ⟨hd, hr⟩ | ⟨hd, hr⟩ | rfl | rfl | hr
    · have := read_number_progress _ _ _ hlt hd hr
      omega
    · have := read_word_progress _ _ _ hlt hd hr
      omega
    · rw [advance_position]
      omega
    · rw [advance_position, advance_position]
      omega
    · have h2 : st' = (read_string (skip_whitespace st)).2 := by rw [← hr]
      have := read_string_progress (skip_whitespace st)
      rw [h2]
      omega

/-- `next_token` produces the sentinel only from the end-of-input branch:
the state it returns is then the whitespace-skipped state, with the cursor
at or past the end. -/
theorem next_token_EOI_inv (st : Lexer) (st' : Lexer)
    (h : next_token st = some (Token.EOI, st')) :
    st' = skip_whitespace st ∧ st'.input.length ≤ st'.position := by
  rcases next_token_cases st Token.EOI st' h with ⟨-, rfl, hend⟩ | ⟨-, hne, -⟩
  · exact ⟨rfl, hend⟩
  · exact absurd rfl hne

/-- C8: once the cursor has passed the end of the source, `next_token`
returns the end-of-input sentinel, and every further call returns the same
sentinel with the same state: the stream is idempotent at end of stream. -/
theorem c8_theorem (st : Lexer) (st' : Lexer)
    (h : next_token st = some (Token.EOI, st')) :
    next_token st' = some (Token.EOI, st') := by
  obtain ⟨-, hend⟩ := next_token_EOI_inv st st' h
  unfold next_token
  dsimp only
  rw [skip_whitespace_of_exhausted st' hend, if_pos hend]

/-- C8 witness: the empty source yields the sentinel, and polling again
yields it again. -/
theorem c8_witness :
    next_token (mkLexer "") = some (Token.EOI, ⟨[], 0, 1, 1⟩) ∧
      next_token ⟨[], 0, 1, 1⟩ = some (Token.EOI, ⟨[], 0, 1, 1⟩) :=
  ⟨rfl, c8_theorem (mkLexer "") ⟨[], 0, 1, 1⟩ rfl⟩

/-- C3 counterexample: lexing `"42."` does not fail — the claim that the
numeric parse of the text `"42."` fails is false on the code, because
Rust's `f64` parser accepts a trailing decimal point. -/
theorem c3_counterexample : next_token (mkLexer "42.") ≠ none := by
  decide

/-- C3 (amended): lexing `"42."` consumes the two digits and the dot
(final cursor position 3, column 4), submits the text `"42."` to the
numeric parse, and that parse succeeds, yielding the float literal 42. -/
theorem c3_theorem :
    next_token (mkLexer "42.") =
      some (Token.FloatLiteral 42, ⟨['4', '2', '.'], 3, 1, 4⟩) := by
  have h : (digitsVal ['4', '2'] : Rat) +
      (digitsVal ([] : List Char) : Rat) / ((10 : Rat) ^ (0 : Nat)) = 42 := by
    have h4 : digitsVal ['4', '2'] = 42 := by decide
    have h0 : digitsVal ([] : List Char) = 0 := by decide
    rw [h4, h0]
    norm_num
  rw [← h]
  rfl

/-- The `read_string` scan runs to the end of the input when no closing
quote exists at or after the cursor. -/
theorem readStringGo_no_quote (f : Nat) (st : Lexer)
    (hle : st.position ≤ st.input.length)
    (hf : st.input.length - st.position ≤ f)
    (hq : '"' ∉ st.input.drop st.position) :
    ∃ ln col, readStringGo f st = ⟨st.input, st.input.length, ln, col⟩ := by
  induction f generalizing st with
  | zero =>
    have hpos : st.position = st.input.length := by omega
    exact ⟨st.line, st.column, by rw [readStringGo, ← hpos]⟩
  | succ f ih =>
    rw [readStringGo]
    split
    · rename_i hcond
      have h1 := advance_position st
      have h2 := advance_input st
      obtain ⟨ln, col, hr⟩ := ih (advance st) (by rw [h1, h2]; omega) (by rw [h1, h2]; omega)
        (by
          rw [h1, h2]
          intro hmem
          rw [← List.tail_drop] at hmem
          exact hq (List.mem_of_mem_tail hmem))
      exact ⟨ln, col, by rw [hr, h2]⟩
    · rename_i hcond
      rw [not_and_or] at hcond
      rcases hcond with hcond | hcond
      · have hpos : st.position = st.input.length := by omega
        exact ⟨st.line, st.column, by rw [← hpos]⟩
      · exfalso
        have hcc : charAt st = '"' := not_not.mp hcond
        by_cases hp : st.position < st.input.length
        · apply hq
          rw [List.drop_eq_getElem_cons hp]
          have hg : st.input[st.position] = '"' := by
            rw [← hcc]
            unfold charAt
            rw [List.getD_eq_getElem?_getD, List.getElem?_eq_getElem hp]
            rfl
          rw [hg]
          exact List.mem_cons_self _ _
        · have hsp : charAt st = ' ' := by
            unfold charAt
            rw [List.getD_eq_getElem?_getD, List.getElem?_eq_none (by omega)]
            rfl
          rw [hsp] at hcc
          exact absurd hcc (by decide)

/-- `read_string` on an unterminated string: the token text is exactly the
input from just after the opening quote to the end, no error is raised,
and the cursor parks at the end of the input. -/
theorem read_string_unterminated (st : Lexer) (hlt : st.position < st.input.length)
    (hq : '"' ∉ st.input.drop (st.position + 1)) :
    ∃ ln col, read_string st =
      (Token.StringLiteral (String.mk (st.input.drop (st.position + 1))),
        ⟨st.input, st.input.length, ln, col⟩) := by
  unfold read_string
  dsimp only
  have h1 := advance_position st
  have h2 := advance_input st
  obtain ⟨ln, col, hr⟩ := readStringGo_no_quote
    ((advance st).input.length - (advance st).position) (advance st)
    (by rw [h1, h2]; omega) (Nat.le_refl _) (by rw [h1, h2]; exact hq)
  rw [hr]
  dsimp only
  rw [if_neg (by omega)]
  refine ⟨ln, col, ?_⟩
  rw [h2, h1]
  unfold slice
  rw [List.take_of_length_le (by rw [List.length_drop])]

/-- C7: lexing a string literal with no closing quote raises no error: the
lexer returns a string-literal token holding exactly the characters from
just after the opening quote to the end of the input. -/
theorem c7_theorem (st : Lexer) (hlt : st.position < st.input.length)
    (hc : charAt st = '"') (hq : '"' ∉ st.input.drop (st.position + 1)) :
    ∃ st', next_token st =
      some (Token.StringLiteral (String.mk (st.input.drop (st.position + 1))), st') := by
  have hsw : skip_whitespace st = st :=
    skip_whitespace_of_solid st hlt (by rw [hc]; decide) (by rw [hc]; decide)
  unfold next_token
  dsimp only
  rw [hsw, if_neg (by omega), hc]
  rw [if_neg (by decide), if_neg (by decide), if_neg (by decide), if_neg (by decide)]
  rw [if_neg (fun hand => absurd hand.1 (by decide))]
  rw [if_neg (by decide), if_neg (by decide), if_neg (by decide), if_neg (by decide)]
  rw [if_neg (by decide), if_neg (by decide), if_neg (by decide), if_pos rfl]
  obtain ⟨ln, col, hr⟩ := read_string_unterminated st hlt hq
  rw [hr]
  exact ⟨_, rfl⟩

/-- C7 witness: the input consisting of a quote and `ab` lexes to the
string literal `"ab"` without error. -/
theorem c7_witness :
    (mkLexer "\"ab").position < (mkLexer "\"ab").input.length ∧
      charAt (mkLexer "\"ab") = '"' ∧
      '"' ∉ (mkLexer "\"ab").input.drop ((mkLexer "\"ab").position + 1) ∧
      ∃ st', next_token (mkLexer "\"ab") =
        some (Token.StringLiteral
          (String.mk ((mkLexer "\"ab").input.drop ((mkLexer "\"ab").position + 1))), st') :=
  ⟨by decide, by decide, by decide,
    c7_theorem (mkLexer "\"ab") (by decide) (by decide) (by decide)⟩

/-! ### Parser claims -/

/-- C5: a successfully parsed function body has non-empty `params` only
when the lambda-style dispatch condition held on entry (current token an
identifier, lookahead a colon); the literal, block and fallback productions
always return empty `params`. -/
theorem c5_theorem (fuel : Nat) (l : List Token)
    (r : List (String × Ty) × List Function × List Expr) (l' : List Token)
    (h : parse_function_body fuel l = .ok (r, l')) (hne : r.1 ≠ []) :
    isIdentTok (cur l) = true ∧ pk l = Token.Colon := by
  match fuel with
  | 0 => simp [parse_function_body] at h
  | fuel + 1 =>
    rw [parse_function_body] at h
    split at h
    · rename_i hcond
      exact hcond
    · exfalso
      split at h
      · simp only [Res.ok.injEq, Prod.mk.injEq] at h
        obtain ⟨rfl, rfl⟩ := h
        exact hne rfl
      · simp only [Res.ok.injEq, Prod.mk.injEq] at h
        obtain ⟨rfl, rfl⟩ := h
        exact hne rfl
      · simp only [Res.ok.injEq, Prod.mk.injEq] at h
        obtain ⟨rfl, rfl⟩ := h
        exact hne rfl
      · split at h
        · exact Res.noConfusion h
        · split at h
          · split at h
            · exact Res.noConfusion h
            · simp only [Res.ok.injEq, Prod.mk.injEq] at h
              obtain ⟨rfl, rfl⟩ := h
              exact hne rfl
          · exact Res.noConfusion h
          · exact Res.noConfusion h
      · split at h
        · simp only [Res.ok.injEq, Prod.mk.injEq] at h
          obtain ⟨rfl, rfl⟩ := h
          exact hne rfl
        · exact Res.noConfusion h
        · exact Res.noConfusion h

/-- C5 witness: a lambda-style body with one parameter has non-empty
`params`, and its entry state satisfies the dispatch condition. -/
theorem c5_witness :
    isIdentTok (cur [Token.Ident "a", Token.Colon, Token.TypeIdent "Int",
        Token.Arrow, Token.Ident "a"]) = true ∧
      pk [Token.Ident "a", Token.Colon, Token.TypeIdent "Int",
        Token.Arrow, Token.Ident "a"] = Token.Colon :=
  c5_theorem 9 _ ([("a", Ty.Int)], [], [Expr.Call "a" []]) [] rfl (by decide)

/-- Inversion for `expect`: success means the current token matched and
one token was consumed. -/
theorem expect_eq_some (t : Token) (l l2 : List Token) (h : expect t l = some l2) :
    cur l = t ∧ l2 = l.tail := by
  unfold expect at h
  split at h
  · rename_i hc
    simp only [Option.some.injEq] at h
    exact ⟨hc, h.symm⟩
  · exact Option.noConfusion h

/-- C9: every triple the lambda-style production returns has an empty
`body` and a singleton `return_expr` holding exactly the expression parsed
after the `->` (which follows the parameter list without being consumed by
it). -/
theorem c9_theorem (fuel : Nat) (l : List Token)
    (r : List (String × Ty) × List Function × List Expr) (l' : List Token)
    (h : parse_lambda_style fuel l = .ok (r, l')) :
    r.2.1 = [] ∧ ∃ ps l1 e, parse_lambda_params (fuel - 1) l = .ok (ps, l1) ∧
      cur l1 = Token.Arrow ∧ parse_expr (fuel - 1) l1.tail = .ok (e, l') ∧
      r = (ps, [], [e]) := by
  match fuel with
  | 0 => simp [parse_lambda_style] at h
  | fuel + 1 =>
    rw [parse_lambda_style] at h
    rw [Nat.add_sub_cancel]
    split at h
    · rename_i ps l1 hps
      split at h
      · exact Res.noConfusion h
      · rename_i l2 hexp
        obtain ⟨harrow, rfl⟩ := expect_eq_some _ _ _ hexp
        split at h
        · rename_i e l3 he
          simp only [Res.ok.injEq, Prod.mk.injEq] at h
          obtain ⟨rfl, rfl⟩ := h
          exact ⟨rfl, ps, l1, e, hps, harrow, he, rfl⟩
        · exact Res.noConfusion h
        · exact Res.noConfusion h
    · exact Res.noConfusion h
    · exact Res.noConfusion h

/-- C9 witness: the lambda-style body `a : Int -> a` yields an empty body
and the singleton return expression `a`. -/
theorem c9_witness :
    (([("a", Ty.Int)], ([] : List Function), [Expr.Call "a" []]) :
        List (String × Ty) × List Function × List Expr).2.1 = [] ∧
      ∃ ps l1 e, parse_lambda_params 8 [Token.Ident "a", Token.Colon,
          Token.TypeIdent "Int", Token.Arrow, Token.Ident "a"] = .ok (ps, l1) ∧
        cur l1 = Token.Arrow ∧ parse_expr 8 l1.tail = .ok (e, []) ∧
        (([("a", Ty.Int)], ([] : List Function), [Expr.Call "a" []]) :
          List (String × Ty) × List Function × List Expr) = (ps, [], [e]) :=
  c9_theorem 9 _ _ [] rfl

/-- C2 counterexample: a block body cut off by end-of-input is not accepted
silently — the whole parse of `let x = { 5` fails. -/
theorem c2_counterexample : runParse "let x = \x7b 5" = .err := rfl

/-- C2 (amended): the block-body loop itself does stop silently at
end-of-input, but `parse_function_body` then requires a closing `}` via
`expect(RightCurly)`, which fails on the sentinel; so premature end of
input inside a block is reported as an expected-token error, not accepted. -/
theorem c2_theorem :
    (∀ n, parse_block_items (n + 1) ([] : List Token) = .ok (([], []), [])) ∧
      (∀ n (l : List Token) (r : List Function × List Expr),
        parse_block_items n l = .ok (r, []) →
          parse_function_body (n + 1) (Token.LeftCurly :: l) = .err) := by
  constructor
  · intro n
    rfl
  · intro n l r h
    rw [parse_function_body]
    rw [if_neg (by simp [cur, isIdentTok])]
    have hcur : cur (Token.LeftCurly :: l) = Token.LeftCurly := rfl
    simp only [hcur]
    have hexp : expect Token.LeftCurly (Token.LeftCurly :: l) = some l := rfl
    rw [hexp]
    simp only [h]
    rfl

/-- C2 witness: block items `5` consume the whole stream, and the body
parse of `{ 5` then errors. -/
theorem c2_witness :
    parse_block_items 1 ([] : List Token) = .ok (([], []), []) ∧
      parse_function_body 4 [Token.LeftCurly, Token.IntegerLiteral 5] = .err :=
  ⟨c2_theorem.1 0, c2_theorem.2 3 [Token.IntegerLiteral 5] ([], [Expr.IntLiteral 5]) rfl⟩

/-- C1 counterexample: a top-level definition whose leading token is
neither `let` nor `let!` is not necessarily rejected — `foo x = 5` parses
successfully (to a `LinFunc` named `x`), because `parse_function` consumes
the leading token without checking it. -/
theorem c1_counterexample :
    runParse "foo x = 5" = .ok [Function.LinFunc "x" [] [] [Expr.IntLiteral 5]] := rfl

/-- C1 (amended): the parser produces a `NonlinFunc` exactly when the
leading token of the definition is `let!`; any other leading token
(including `let`, but also any non-keyword) is consumed unchecked and
produces a `LinFunc` whenever the rest parses as `Ident = body` — e.g.
`let! x = 5` yields `NonlinFunc "x"` with return_expr `[IntLiteral 5]`,
while `foo x = 5` is accepted as a `LinFunc` named `x`. -/
theorem c1_theorem (fuel : Nat) (l : List Token) (f : Function) (l' : List Token)
    (h : parse_function fuel l = .ok (f, l')) :
    isNonlinFunc f = true ↔ cur l = Token.KeywordLetBang := by
  match fuel with
  | 0 => simp [parse_function] at h
  | fuel + 1 =>
    rw [parse_function] at h
    split at h
    · exact Res.noConfusion h
    · split at h
      · exact Res.noConfusion h
      · split at h
        · split at h
          · rename_i hbang
            simp only [Res.ok.injEq, Prod.mk.injEq] at h
            obtain ⟨rfl, rfl⟩ := h
            simp [isNonlinFunc, hbang]
          · rename_i hbang
            simp only [Res.ok.injEq, Prod.mk.injEq] at h
            obtain ⟨rfl, rfl⟩ := h
            simp [isNonlinFunc]
            exact hbang
        · exact Res.noConfusion h
        · exact Res.noConfusion h

/-- C1 witness: `let! x = 5` (token stream) produces a `NonlinFunc`, and
the leading token is indeed `let!`. -/
theorem c1_witness :
    isNonlinFunc (Function.NonlinFunc "x" [] [] [Expr.IntLiteral 5]) = true ↔
      cur [Token.KeywordLetBang, Token.Ident "x", Token.Equal,
        Token.IntegerLiteral 5] = Token.KeywordLetBang :=
  c1_theorem 9 _ _ [] rfl

/-- C4: `let` immediately followed by `!` lexes as the non-linear let
keyword; `let`, whitespace, `!` lexes as the plain `let` keyword and then
fails on the bare `!` (so the whole stream fails to tokenize). -/
theorem c4_theorem :
    tokenize "let! x" = .ok [Token.KeywordLetBang, Token.Ident "x"] ∧
      (next_token (mkLexer "let ! x")).map Prod.fst = some Token.KeywordLet ∧
      ((next_token (mkLexer "let ! x")).bind fun p => next_token p.2) = none ∧
      tokenize "let ! x" = .err :=
  ⟨rfl, rfl, rfl, rfl⟩

/-! ### Measures: successful parses consume tokens -/

theorem ne_nil_of_cur_ne_EOI (l : List Token) (h : cur l ≠ Token.EOI) : l ≠ [] := by
  intro hl
  rw [hl] at h
  exact h rfl

theorem length_tail_lt (l : List Token) (h : l ≠ []) : l.tail.length < l.length := by
  cases l with
  | nil => exact absurd rfl h
  | cons a t => simp

theorem parse_ident_eq_some (l : List Token) (name : String) (l2 : List Token)
    (h : parse_ident l = some (name, l2)) : cur l = Token.Ident name ∧ l2 = l.tail := by
  unfold parse_ident at h
  split at h
  · rename_i s hs
    simp only [Option.some.injEq, Prod.mk.injEq] at h
    obtain ⟨rfl, rfl⟩ := h
    exact ⟨hs, rfl⟩
  · exact Option.noConfusion h

theorem parse_type_eq_some (l : List Token) (ty : Ty) (l2 : List Token)
    (h : parse_type l = some (ty, l2)) : cur l ≠ Token.EOI ∧ l2 = l.tail := by
  unfold parse_type at h
  split at h
  · rename_i name hname
    split at h
    · simp only [Option.some.injEq, Prod.mk.injEq] at h
      obtain ⟨rfl, rfl⟩ := h
      rw [hname]
      exact ⟨by simp, rfl⟩
    · split at h
      · simp only [Option.some.injEq, Prod.mk.injEq] at h
        obtain ⟨rfl, rfl⟩ := h
        rw [hname]
        exact ⟨by simp, rfl⟩
      · split at h
        · simp only [Option.some.injEq, Prod.mk.injEq] at h
          obtain ⟨rfl, rfl⟩ := h
          rw [hname]
          exact ⟨by simp, rfl⟩
        · exact Option.noConfusion h
  · exact Option.noConfusion h

/-- Token consumption: a successful parse of an expression, a function, a
parameter list or a body strictly shortens the token stream (the argument
and block loops shorten it weakly).  Proved for all the mutually recursive
parser functions at once by induction on fuel. -/
theorem parse_measures (n : Nat) :
    (∀ l e l', parse_expr n l = .ok (e, l') → l'.length < l.length) ∧
      (∀ l as l', parse_call_args n l = .ok (as, l') → l'.length ≤ l.length) ∧
      (∀ l ps l', parse_lambda_params n l = .ok (ps, l') → l'.length < l.length) ∧
      (∀ l r l', parse_lambda_style n l = .ok (r, l') → l'.length < l.length) ∧
      (∀ l r l', parse_function_body n l = .ok (r, l') → l'.length < l.length) ∧
      (∀ l f l', parse_function n l = .ok (f, l') → l'.length < l.length) ∧
      (∀ l r l', parse_block_items n l = .ok (r, l') → l'.length ≤ l.length) := by
  induction n with
  | zero =>
    refine ⟨?_, ?_, ?_, ?_, ?_, ?_, ?_⟩ <;> intro l a l' h <;> exact Res.noConfusion h
  | succ n ih =>
    obtain ⟨ihE, ihA, ihP, ihL, ihB, ihF, ihI⟩ := ih
    have hE : ∀ l e l', parse_expr (n + 1) l = .ok (e, l') → l'.length < l.length := by
      intro l e l' h
      rw [parse_expr] at h
      split at h
      · rename_i name hname
        have hnil : l ≠ [] := ne_nil_of_cur_ne_EOI l (by rw [hname]; simp)
        have hlen : l.tail.length = l.length - 1 := List.length_tail l
        have hpos : 0 < l.length := List.length_pos.mpr hnil
        split at h
        · rename_i hlp
          have hnil2 : l.tail ≠ [] := ne_nil_of_cur_ne_EOI l.tail (by rw [hlp]; simp)
          have hlen2 : l.tail.tail.length = l.tail.length - 1 := List.length_tail l.tail
          have hpos2 : 0 < l.tail.length := List.length_pos.mpr hnil2
          split at h
          · rename_i args l2 hargs
            split at h
            · exact Res.noConfusion h
            · rename_i l3 hexp
              obtain ⟨hrp, rfl⟩ := expect_eq_some _ _ _ hexp
              simp only [Res.ok.injEq, Prod.mk.injEq] at h
              obtain ⟨rfl, rfl⟩ := h
              have h2 := ihA _ _ _ hargs
              have hnil3 : l2 ≠ [] := ne_nil_of_cur_ne_EOI l2 (by rw [hrp]; simp)
              have hlen3 : l2.tail.length = l2.length - 1 := List.length_tail l2
              have hpos3 : 0 < l2.length := List.length_pos.mpr hnil3
              omega
          · exact Res.noConfusion h
          · exact Res.noConfusion h
        · simp only [Res.ok.injEq, Prod.mk.injEq] at h
          obtain ⟨rfl, rfl⟩ := h
          omega
      · rename_i k hk
        have hnil : l ≠ [] := ne_nil_of_cur_ne_EOI l (by rw [hk]; simp)
        simp only [Res.ok.injEq, Prod.mk.injEq] at h
        obtain ⟨rfl, rfl⟩ := h
        exact length_tail_lt l hnil
      · rename_i q hq
        have hnil : l ≠ [] := ne_nil_of_cur_ne_EOI l (by rw [hq]; simp)
        simp only [Res.ok.injEq, Prod.mk.injEq] at h
        obtain ⟨rfl, rfl⟩ := h
        exact length_tail_lt l hnil
      · rename_i s hs
        have hnil : l ≠ [] := ne_nil_of_cur_ne_EOI l (by rw [hs]; simp)
        simp only [Res.ok.injEq, Prod.mk.injEq] at h
        obtain ⟨rfl, rfl⟩ := h
        exact length_tail_lt l hnil
      · exact Res.noConfusion h
    have hA : ∀ l as l', parse_call_args (n + 1) l = .ok (as, l') → l'.length ≤ l.length := by
      intro l as l' h
      rw [parse_call_args] at h
      split at h
      · simp only [Res.ok.injEq, Prod.mk.injEq] at h
        obtain ⟨rfl, rfl⟩ := h
        exact Nat.le_refl _
      · split at h
        · rename_i e1 l1 he
          have h1 := ihE _ _ _ he
          have h2 : (if cur l1 = Token.Comma then l1.tail else l1).length ≤ l1.length := by
            split
            · have := List.length_tail l1
              omega
            · exact Nat.le_refl _
          split at h
          · rename_i args2 l3 hrec
            have h3 := ihA _ _ _ hrec
            simp only [Res.ok.injEq, Prod.mk.injEq] at h
            obtain ⟨rfl, rfl⟩ := h
            omega
          · exact Res.noConfusion h
          · exact Res.noConfusion h
        · exact Res.noConfusion h
        · exact Res.noConfusion h
    have hP : ∀ l ps l', parse_lambda_params (n + 1) l = .ok (ps, l') → l'.length < l.length := by
      intro l ps l' h
      rw [parse_lambda_params] at h
      split at h
      · exact Res.noConfusion h
      · rename_i name l1 hident
        obtain ⟨hcur1, rfl⟩ := parse_ident_eq_some _ _ _ hident
        have hnil : l ≠ [] := ne_nil_of_cur_ne_EOI l (by rw [hcur1]; simp)
        have hpos : 0 < l.length := List.length_pos.mpr hnil
        have hlen1 : l.tail.length = l.length - 1 := List.length_tail l
        split at h
        · exact Res.noConfusion h
        · rename_i l2 hexp
          obtain ⟨hcur2, rfl⟩ := expect_eq_some _ _ _ hexp
          have hnil2 : l.tail ≠ [] := ne_nil_of_cur_ne_EOI l.tail (by rw [hcur2]; simp)
          have hpos2 : 0 < l.tail.length := List.length_pos.mpr hnil2
          have hlen2 : l.tail.tail.length = l.tail.length - 1 := List.length_tail l.tail
          split at h
          · exact Res.noConfusion h
          · rename_i ty l3 hty
            obtain ⟨hcur3, rfl⟩ := parse_type_eq_some _ _ _ hty
            have hnil3 : l.tail.tail ≠ [] := ne_nil_of_cur_ne_EOI l.tail.tail hcur3
            have hpos3 : 0 < l.tail.tail.length := List.length_pos.mpr hnil3
            have hlen3 : l.tail.tail.tail.length = l.tail.tail.length - 1 :=
              List.length_tail l.tail.tail
            split at h
            · split at h
              · rename_i ps2 l4 hrec
                have h4 := ihP _ _ _ hrec
                have hlen4 : l.tail.tail.tail.tail.length = l.tail.tail.tail.length - 1 :=
                  List.length_tail l.tail.tail.tail
                simp only [Res.ok.injEq, Prod.mk.injEq] at h
                obtain ⟨rfl, rfl⟩ := h
                omega
              · exact Res.noConfusion h
              · exact Res.noConfusion h
            · simp only [Res.ok.injEq, Prod.mk.injEq] at h
              obtain ⟨rfl, rfl⟩ := h
              omega
            · exact Res.noConfusion h
    have hL : ∀ l r l', parse_lambda_style (n + 1) l = .ok (r, l') → l'.length < l.length := by
      intro l r l' h
      rw [parse_lambda_style] at h
      split at h
      · rename_i ps l1 hps
        have h1 := ihP _ _ _ hps
        split at h
        · exact Res.noConfusion h
        · rename_i l2 hexp
          obtain ⟨hcur2, rfl⟩ := expect_eq_some _ _ _ hexp
          have hnil2 : l1 ≠ [] := ne_nil_of_cur_ne_EOI l1 (by rw [hcur2]; simp)
          have hpos2 : 0 < l1.length := List.length_pos.mpr hnil2
          have hlen2 : l1.tail.length = l1.length - 1 := List.length_tail l1
          split at h
          · rename_i e l3 he
            have h3 := ihE _ _ _ he
            simp only [Res.ok.injEq, Prod.mk.injEq] at h
            obtain ⟨rfl, rfl⟩ := h
            omega
          · exact Res.noConfusion h
          · exact Res.noConfusion h
      · exact Res.noConfusion h
      · exact Res.noConfusion h
    have hB : ∀ l r l', parse_function_body (n + 1) l = .ok (r, l') → l'.length < l.length := by
      intro l r l' h
      rw [parse_function_body] at h
      split at h
      · exact ihL _ _ _ h
      · split at h
        · rename_i k hk
          have hnil : l ≠ [] := ne_nil_of_cur_ne_EOI l (by rw [hk]; simp)
          simp only [Res.ok.injEq, Prod.mk.injEq] at h
          obtain ⟨rfl, rfl⟩ := h
          exact length_tail_lt l hnil
        · rename_i q hq
          have hnil : l ≠ [] := ne_nil_of_cur_ne_EOI l (by rw [hq]; simp)
          simp only [Res.ok.injEq, Prod.mk.injEq] at h
          obtain ⟨rfl, rfl⟩ := h
          exact length_tail_lt l hnil
        · rename_i s hs
          have hnil : l ≠ [] := ne_nil_of_cur_ne_EOI l (by rw [hs]; simp)
          simp only [Res.ok.injEq, Prod.mk.injEq] at h
          obtain ⟨rfl, rfl⟩ := h
          exact length_tail_lt l hnil
        · rename_i hlc
          split at h
          · exact Res.noConfusion h
          · rename_i l1 hexp
            obtain ⟨hcur1, rfl⟩ := expect_eq_some _ _ _ hexp
            have hnil : l ≠ [] := ne_nil_of_cur_ne_EOI l (by rw [hcur1]; simp)
            have hpos : 0 < l.length := List.length_pos.mpr hnil
            have hlen1 : l.tail.length = l.length - 1 := List.length_tail l
            split at h
            · rename_i r2 l2 hitems
              have h2 := ihI _ _ _ hitems
              split at h
              · exact Res.noConfusion h
              · rename_i l3 hexp2
                obtain ⟨hcur3, rfl⟩ := expect_eq_some _ _ _ hexp2
                have hnil3 : l2 ≠ [] := ne_nil_of_cur_ne_EOI l2 (by rw [hcur3]; simp)
                have hpos3 : 0 < l2.length := List.length_pos.mpr hnil3
                have hlen3 : l2.tail.length = l2.length - 1 := List.length_tail l2
                simp only [Res.ok.injEq, Prod.mk.injEq] at h
                obtain ⟨rfl, rfl⟩ := h
                omega
            · exact Res.noConfusion h
            · exact Res.noConfusion h
        · split at h
          · rename_i e l1 he
            have h1 := ihE _ _ _ he
            simp only [Res.ok.injEq, Prod.mk.injEq] at h
            obtain ⟨rfl, rfl⟩ := h
            omega
          · exact Res.noConfusion h
          · exact Res.noConfusion h
    have hF : ∀ l f l', parse_function (n + 1) l = .ok (f, l') → l'.length < l.length := by
      intro l f l' h
      rw [parse_function] at h
      split at h
      · exact Res.noConfusion h
      · rename_i name l2 hident
        obtain ⟨hcur2, rfl⟩ := parse_ident_eq_some _ _ _ hident
        have hnil2 : l.tail ≠ [] := ne_nil_of_cur_ne_EOI l.tail (by rw [hcur2]; simp)
        have hpos2 : 0 < l.tail.length := List.length_pos.mpr hnil2
        have hlen1 : l.tail.length = l.length - 1 := List.length_tail l
        have hlen2 : l.tail.tail.length = l.tail.length - 1 := List.length_tail l.tail
        split at h
        · exact Res.noConfusion h
        · rename_i l3 hexp
          obtain ⟨hcur3, rfl⟩ := expect_eq_some _ _ _ hexp
          have hnil3 : l.tail.tail ≠ [] := ne_nil_of_cur_ne_EOI l.tail.tail (by rw [hcur3]; simp)
          have hpos3 : 0 < l.tail.tail.length := List.length_pos.mpr hnil3
          have hlen3 : l.tail.tail.tail.length = l.tail.tail.length - 1 :=
            List.length_tail l.tail.tail
          split at h
          · rename_i r l4 hbody
            have h4 := ihB _ _ _ hbody
            split at h <;> simp only [Res.ok.injEq, Prod.mk.injEq] at h <;>
              obtain ⟨rfl, rfl⟩ := h <;> omega
          · exact Res.noConfusion h
          · exact Res.noConfusion h
    have hI : ∀ l r l', parse_block_items (n + 1) l = .ok (r, l') → l'.length ≤ l.length := by
      intro l r l' h
      rw [parse_block_items] at h
      split at h
      · simp only [Res.ok.injEq, Prod.mk.injEq] at h
        obtain ⟨rfl, rfl⟩ := h
        exact Nat.le_refl _
      · split at h
        · split at h
          · rename_i f l1 hf
            have h1 := ihF _ _ _ hf
            split at h
            · rename_i r2 l2 hrec
              have h2 := ihI _ _ _ hrec
              simp only [Res.ok.injEq, Prod.mk.injEq] at h
              obtain ⟨rfl, rfl⟩ := h
              omega
            · exact Res.noConfusion h
            · exact Res.noConfusion h
          · exact Res.noConfusion h
          · exact Res.noConfusion h
        · split at h
          · rename_i e l1 he
            have h1 := ihE _ _ _ he
            split at h
            · rename_i r2 l2 hrec
              have h2 := ihI _ _ _ hrec
              simp only [Res.ok.injEq, Prod.mk.injEq] at h
              obtain ⟨rfl, rfl⟩ := h
              omega
            · exact Res.noConfusion h
            · exact Res.noConfusion h
          · exact Res.noConfusion h
          · exact Res.noConfusion h
    exact ⟨hE, hA, hP, hL, hB, hF, hI⟩

/-- A successful expression or argument-list parse leaves a suffix of the
token stream it was given. -/
theorem parse_suffix (n : Nat) :
    (∀ l e l', parse_expr n l = .ok (e, l') → l' <:+ l) ∧
      (∀ l as l', parse_call_args n l = .ok (as, l') → l' <:+ l) := by
  induction n with
  | zero => exact ⟨fun l e l' h => Res.noConfusion h, fun l as l' h => Res.noConfusion h⟩
  | succ n ih =>
    obtain ⟨ihE, ihA⟩ := ih
    have hE : ∀ l e l', parse_expr (n + 1) l = .ok (e, l') → l' <:+ l := by
      intro l e l' h
      rw [parse_expr] at h
      split at h
      · split at h
        · split at h
          · rename_i args l2 hargs
            split at h
            · exact Res.noConfusion h
            · rename_i l3 hexp
              obtain ⟨hrp, rfl⟩ := expect_eq_some _ _ _ hexp
              simp only [Res.ok.injEq, Prod.mk.injEq] at h
              obtain ⟨rfl, rfl⟩ := h
              exact ((List.tail_suffix l2).trans (ihA _ _ _ hargs)).trans
                ((List.tail_suffix l.tail).trans (List.tail_suffix l))
          · exact Res.noConfusion h
          · exact Res.noConfusion h
        · simp only [Res.ok.injEq, Prod.mk.injEq] at h
          obtain ⟨rfl, rfl⟩ := h
          exact List.tail_suffix l
      · simp only [Res.ok.injEq, Prod.mk.injEq] at h
        obtain ⟨rfl, rfl⟩ := h
        exact List.tail_suffix l
      · simp only [Res.ok.injEq, Prod.mk.injEq] at h
        obtain ⟨rfl, rfl⟩ := h
        exact List.tail_suffix l
      · simp only [Res.ok.injEq, Prod.mk.injEq] at h
        obtain ⟨rfl, rfl⟩ := h
        exact List.tail_suffix l
      · exact Res.noConfusion h
    have hA : ∀ l as l', parse_call_args (n + 1) l = .ok (as, l') → l' <:+ l := by
      intro l as l' h
      rw [parse_call_args] at h
      split at h
      · simp only [Res.ok.injEq, Prod.mk.injEq] at h
        obtain ⟨rfl, rfl⟩ := h
        exact List.suffix_refl l
      · split at h
        · rename_i e1 l1 he
          split at h
          · rename_i args2 l3 hrec
            have h3 : (if cur l1 = Token.Comma then l1.tail else l1) <:+ l1 := by
              split
              · exact List.tail_suffix l1
              · exact List.suffix_refl l1
            simp only [Res.ok.injEq, Prod.mk.injEq] at h
            obtain ⟨rfl, rfl⟩ := h
            exact ((ihA _ _ _ hrec).trans h3).trans (ihE _ _ _ he)
          · exact Res.noConfusion h
          · exact Res.noConfusion h
        · exact Res.noConfusion h
        · exact Res.noConfusion h
    exact ⟨hE, hA⟩

/-- The expression parser only succeeds when the current token is an
identifier or a literal. -/
theorem parse_expr_ok_cur (n : Nat) (l : List Token) (e : Expr) (l' : List Token)
    (h : parse_expr n l = .ok (e, l')) :
    (∃ s, cur l = Token.Ident s) ∨ (∃ k, cur l = Token.IntegerLiteral k) ∨
      (∃ q, cur l = Token.FloatLiteral q) ∨ (∃ s, cur l = Token.StringLiteral s) := by
  match n with
  | 0 => exact Res.noConfusion h
  | n + 1 =>
    rw [parse_expr] at h
    split at h
    · rename_i s hs
      exact Or.inl ⟨s, hs⟩
    · rename_i k hk
      exact Or.inr (Or.inl ⟨k, hk⟩)
    · rename_i q hq
      exact Or.inr (Or.inr (Or.inl ⟨q, hq⟩))
    · rename_i s hs
      exact Or.inr (Or.inr (Or.inr ⟨s, hs⟩))
    · exact Res.noConfusion h

/-- The expression parser never succeeds on a left parenthesis. -/
theorem parse_expr_not_ok_LP (n : Nat) (l : List Token) (e : Expr) (l' : List Token)
    (hc : cur l = Token.LeftParen) : parse_expr n l ≠ .ok (e, l') := by
  intro h
  rcases parse_expr_ok_cur n l e l' h with ⟨s, hs⟩ | ⟨k, hk⟩ | ⟨q, hq⟩ | ⟨s, hs⟩ <;>
    simp_all

/-- The argument-list loop never succeeds on a left parenthesis. -/
theorem parse_call_args_not_ok_LP (n : Nat) (l : List Token) (as : List Expr)
    (l' : List Token) (hc : cur l = Token.LeftParen) :
    parse_call_args n l ≠ .ok (as, l') := by
  match n with
  | 0 => exact fun h => Res.noConfusion h
  | n + 1 =>
    rw [parse_call_args, if_neg (by rw [hc]; simp)]
    cases hpe : parse_expr n l with
    | ok p => exact absurd hpe (by cases p with | mk e l2 => exact parse_expr_not_ok_LP n l e l2 hc)
    | err => simp
    | oof => simp

/-- Head of a non-empty parser state. -/
theorem cur_cons (a : Token) (l : List Token) : cur (a :: l) = a := rfl

/-- Locality of the expression and argument-list parsers: a successful
parse that consumes `c` and stops exactly at the boundary `B` is oblivious
to what lies beyond the first unconsumed token.  For `parse_expr` the
boundary head may change as long as neither head is `(`, because the only
lookahead past the consumed tokens is the call-or-bare-identifier test; for
`parse_call_args` the boundary head must be preserved (it is the `)` that
stops the loop). -/
theorem parse_locality (n : Nat) :
    (∀ c B B' e, parse_expr n (c ++ B) = .ok (e, B) → cur B ≠ Token.LeftParen →
      cur B' ≠ Token.LeftParen → parse_expr n (c ++ B') = .ok (e, B')) ∧
      (∀ c B B' as, parse_call_args n (c ++ B) = .ok (as, B) → cur B' = cur B →
        parse_call_args n (c ++ B') = .ok (as, B')) := by
  induction n with
  | zero =>
    exact ⟨fun c B B' e h _ _ => absurd h (fun hh => Res.noConfusion hh),
      fun c B B' as h _ => absurd h (fun hh => Res.noConfusion hh)⟩
  | succ n ih =>
    obtain ⟨ihE, ihA⟩ := ih
    have hE : ∀ c B B' e, parse_expr (n + 1) (c ++ B) = .ok (e, B) →
        cur B ≠ Token.LeftParen → cur B' ≠ Token.LeftParen →
        parse_expr (n + 1) (c ++ B') = .ok (e, B') := by
      intro c B B' e h hB hB'
      cases c with
      | nil =>
        exact absurd ((parse_measures (n + 1)).1 _ _ _ (by simpa using h))
          (Nat.lt_irrefl _)
      | cons a c1 =>
        have hh : parse_expr (n + 1) (a :: (c1 ++ B)) = .ok (e, B) := by simpa using h
        show parse_expr (n + 1) (a :: (c1 ++ B')) = .ok (e, B')
        cases a
        case Ident name =>
          rw [parse_expr] at hh
          simp only [cur_cons, List.tail_cons] at hh
          by_cases hlp : cur (c1 ++ B) = Token.LeftParen
          · rw [if_pos hlp] at hh
            cases c1 with
            | nil => exact absurd (by simpa using hlp) hB
            | cons b c2 =>
              have hb : b = Token.LeftParen := by simpa [cur] using hlp
              subst hb
              simp only [List.cons_append, List.tail_cons] at hh
              split at hh
              · rename_i args l2 hargs
                split at hh
                · exact Res.noConfusion hh
                · rename_i l3 hexp
                  obtain ⟨hrp, rfl⟩ := expect_eq_some _ _ _ hexp
                  simp only [Res.ok.injEq, Prod.mk.injEq] at hh
                  obtain ⟨rfl, hB2⟩ := hh
                  have hl2 : l2 = Token.RightParen :: B := by
                    cases l2 with
                    | nil => exact absurd hrp (by simp [cur])
                    | cons x xs =>
                      have hx : x = Token.RightParen := by simpa [cur] using hrp
                      subst hx
                      simp only [List.tail_cons] at hB2
                      rw [hB2]
                  subst hl2
                  have hsfx := (parse_suffix n).2 _ _ _ hargs
                  obtain ⟨pre, hpre⟩ := hsfx
                  have hq : (pre ++ [Token.RightParen]) ++ B = c2 ++ B := by
                    rw [List.append_assoc]
                    exact hpre
                  have hc2 := List.append_cancel_right hq
                  have hargs2 : parse_call_args n (pre ++ (Token.RightParen :: B)) =
                      .ok (args, Token.RightParen :: B) := by
                    rw [hpre]
                    exact hargs
                  have hres := ihA pre (Token.RightParen :: B) (Token.RightParen :: B')
                    args hargs2 rfl
                  rw [parse_expr]
                  simp only [List.cons_append, cur_cons, List.tail_cons]
                  rw [if_pos trivial]
                  rw [← hc2]
                  have harr : (pre ++ [Token.RightParen]) ++ B' =
                      pre ++ (Token.RightParen :: B') := by
                    rw [List.append_assoc]
                    rfl
                  rw [harr, hres]
                  rfl
              · exact Res.noConfusion hh
              · exact Res.noConfusion hh
          · rw [if_neg hlp] at hh
            simp only [Res.ok.injEq, Prod.mk.injEq] at hh
            obtain ⟨rfl, hB2⟩ := hh
            have hc1 : c1 = [] := by
              have hlen := congrArg List.length hB2
              rw [List.length_append] at hlen
              have h0 : c1.length = 0 := by omega
              exact List.length_eq_zero.mp h0
            subst hc1
            rw [parse_expr]
            simp only [List.nil_append, cur_cons, List.tail_cons]
            rw [if_neg hB']
        case IntegerLiteral k =>
          rw [parse_expr] at hh
          simp only [cur_cons, List.tail_cons, Res.ok.injEq, Prod.mk.injEq] at hh
          obtain ⟨rfl, hB2⟩ := hh
          have hc1 : c1 = [] := by
            have hlen := congrArg List.length hB2
            rw [List.length_append] at hlen
            have h0 : c1.length = 0 := by omega
            exact List.length_eq_zero.mp h0
          subst hc1
          rw [parse_expr]
          simp [cur]
        case FloatLiteral q =>
          rw [parse_expr] at hh
          simp only [cur_cons, List.tail_cons, Res.ok.injEq, Prod.mk.injEq] at hh
          obtain ⟨rfl, hB2⟩ := hh
          have hc1 : c1 = [] := by
            have hlen := congrArg List.length hB2
            rw [List.length_append] at hlen
            have h0 : c1.length = 0 := by omega
            exact List.length_eq_zero.mp h0
          subst hc1
          rw [parse_expr]
          simp [cur]
        case StringLiteral s =>
          rw [parse_expr] at hh
          simp only [cur_cons, List.tail_cons, Res.ok.injEq, Prod.mk.injEq] at hh
          obtain ⟨rfl, hB2⟩ := hh
          have hc1 : c1 = [] := by
            have hlen := congrArg List.length hB2
            rw [List.length_append] at hlen
            have h0 : c1.length = 0 := by omega
            exact List.length_eq_zero.mp h0
          subst hc1
          rw [parse_expr]
          simp [cur]
        all_goals (rw [parse_expr] at hh; simp [cur] at hh)
    have hA : ∀ c B B' as, parse_call_args (n + 1) (c ++ B) = .ok (as, B) →
        cur B' = cur B → parse_call_args (n + 1) (c ++ B') = .ok (as, B') := by
      intro c B B' as h hcur
      cases c with
      | nil =>
        simp only [List.nil_append] at h ⊢
        rw [parse_call_args] at h ⊢
        by_cases hrp : cur B = Token.RightParen
        · rw [if_pos hrp] at h
          simp only [Res.ok.injEq, Prod.mk.injEq] at h
          obtain ⟨rfl, -⟩ := h
          rw [if_pos (hcur.trans hrp)]
        · rw [if_neg hrp] at h
          exfalso
          split at h
          · rename_i e1 l1 he
            have h1 := (parse_measures n).1 _ _ _ he
            have h2 : (if cur l1 = Token.Comma then l1.tail else l1).length ≤ l1.length := by
              split
              · have := List.length_tail l1
                omega
              · exact Nat.le_refl _
            split at h
            · rename_i args2 l3 hrec
              have h3 := (parse_measures n).2.1 _ _ _ hrec
              simp only [Res.ok.injEq, Prod.mk.injEq] at h
              obtain ⟨-, hl3⟩ := h
              rw [hl3] at h3
              omega
            · exact Res.noConfusion h
            · exact Res.noConfusion h
          · exact Res.noConfusion h
          · exact Res.noConfusion h
      | cons a c1 =>
        have hh : parse_call_args (n + 1) (a :: (c1 ++ B)) = .ok (as, B) := by simpa using h
        show parse_call_args (n + 1) (a :: (c1 ++ B')) = .ok (as, B')
        rw [parse_call_args] at hh ⊢
        by_cases hrp : a = Token.RightParen
        · rw [if_pos (by simp [cur_cons, hrp])] at hh
          simp only [Res.ok.injEq, Prod.mk.injEq] at hh
          obtain ⟨-, hB2⟩ := hh
          exfalso
          have hlen := congrArg List.length hB2
          simp only [List.length_cons, List.length_append] at hlen
          omega
        · rw [if_neg (by simp [cur_cons, hrp])] at hh
          rw [if_neg (by simp [cur_cons, hrp])]
          split at hh
          · rename_i e1 l1 he
            have hsfxE := (parse_suffix n).1 _ _ _ he
            split at hh
            · rename_i args2 l3 hrec
              simp only [Res.ok.injEq, Prod.mk.injEq] at hh
              obtain ⟨rfl, hl3⟩ := hh
              subst l3
              have hsfxA := (parse_suffix n).2 _ _ _ hrec
              have hsfx2 : (if cur l1 = Token.Comma then l1.tail else l1) <:+ l1 := by
                split
                · exact List.tail_suffix l1
                · exact List.suffix_refl l1
              obtain ⟨c4, hc4⟩ := hsfxA.trans hsfx2
              obtain ⟨c5, hc5⟩ := hsfxE
              have hq : (c5 ++ c4) ++ B = (a :: c1) ++ B := by
                rw [List.append_assoc, hc4, hc5]
                rfl
              have hcc := List.append_cancel_right hq
              have hl1LP : cur l1 ≠ Token.LeftParen := by
                intro hLP
                have hid : (if cur l1 = Token.Comma then l1.tail else l1) = l1 := by
                  rw [if_neg (by rw [hLP]; simp)]
                rw [hid] at hrec
                exact parse_call_args_not_ok_LP n l1 args2 B hLP hrec
              have hB'cur : cur (c4 ++ B') = cur l1 := by
                cases c4 with
                | nil =>
                  simp only [List.nil_append] at hc4 ⊢
                  rw [← hc4]
                  exact hcur
                | cons d c4t =>
                  rw [← hc4]
                  rfl
              have hE2 : parse_expr n (c5 ++ (c4 ++ B')) = .ok (e1, c4 ++ B') := by
                apply ihE c5 l1 (c4 ++ B') e1 ?he1 hl1LP (by rw [hB'cur]; exact hl1LP)
                case he1 =>
                  rw [hc5]
                  exact he
              have hgoal_in : a :: (c1 ++ B') = c5 ++ (c4 ++ B') := by
                rw [← List.append_assoc, hcc]
                rfl
              rw [hgoal_in, hE2]
              dsimp only
              by_cases hcm : cur l1 = Token.Comma
              · cases c4 with
                | nil =>
                  exfalso
                  simp only [List.nil_append] at hc4
                  rw [if_pos hcm] at hrec
                  have hsfx3 := (parse_suffix n).2 _ _ _ hrec
                  rw [← hc4] at hsfx3
                  have hlen := hsfx3.length_le
                  have hnil : B ≠ [] := by
                    intro hb
                    rw [← hc4, hb] at hcm
                    simp [cur] at hcm
                  have := List.length_tail B
                  have hpos : 0 < B.length := List.length_pos.mpr hnil
                  omega
                | cons d c4t =>
                  have hd : d = Token.Comma := by
                    rw [← hc4] at hcm
                    simpa [cur] using hcm
                  subst hd
                  rw [if_pos (by rw [hB'cur]; exact hcm)]
                  rw [if_pos hcm] at hrec
                  rw [← hc4] at hrec
                  simp only [List.cons_append, List.tail_cons] at hrec
                  have hres := ihA c4t B B' args2 hrec hcur
                  simp only [List.cons_append, List.tail_cons]
                  rw [hres]
              · rw [if_neg (by rw [hB'cur]; exact hcm)]
                rw [if_neg hcm] at hrec
                rw [← hc4] at hrec
                have hres := ihA c4 B B' args2 hrec hcur
                rw [hres]
            · exact Res.noConfusion hh
            · exact Res.noConfusion hh
          · exact Res.noConfusion hh
          · exact Res.noConfusion hh
    exact ⟨hE, hA⟩

/-- C6: in a call-argument list the comma after an argument is consumed if
present but never required: continuing the argument loop over an argument
`arg` followed by further argument-list tokens `back` yields the same
result whether or not a comma separates them.  The hypotheses say exactly
that `arg` parses as one argument (with the comma as its lookahead) and
that `back` does not itself begin with `(` (no argument can) or with yet
another comma. -/
theorem c6_theorem (n : Nat) (arg back : List Token) (e : Expr)
    (h : parse_expr n (arg ++ Token.Comma :: back) = .ok (e, Token.Comma :: back))
    (h1 : cur back ≠ Token.LeftParen) (h2 : cur back ≠ Token.Comma) :
    parse_call_args (n + 1) (arg ++ Token.Comma :: back) =
      parse_call_args (n + 1) (arg ++ back) := by
  have hstart := parse_expr_ok_cur n _ e _ h
  have harg : arg ≠ [] := by
    intro ha
    subst ha
    exact absurd ((parse_measures n).1 _ _ _ (by simpa using h)) (Nat.lt_irrefl _)
  have hcurarg : ∀ X : List Token, cur (arg ++ X) = cur arg := by
    intro X
    cases arg with
    | nil => exact absurd rfl harg
    | cons a t => rfl
  have hnrp : cur (arg ++ Token.Comma :: back) ≠ Token.RightParen := by
    rcases hstart with ⟨s, hs⟩ | ⟨k, hs⟩ | ⟨q, hs⟩ | ⟨s, hs⟩ <;> rw [hs] <;> simp
  have heq : cur (arg ++ back) = cur (arg ++ Token.Comma :: back) := by
    rw [hcurarg, hcurarg]
  have hE := (parse_locality n).1 arg (Token.Comma :: back) back e h (by simp [cur]) h1
  rw [parse_call_args, parse_call_args]
  rw [if_neg hnrp, if_neg (by rw [heq]; exact hnrp)]
  rw [h, hE]
  dsimp only
  rw [if_pos (cur_cons Token.Comma back), if_neg h2, List.tail_cons]

/-- C6 witness: the argument lists `a, b)` and `a b)` (after the opening
parenthesis) parse identically. -/
theorem c6_witness :
    parse_expr 5 ([Token.Ident "a"] ++ Token.Comma :: [Token.Ident "b", Token.RightParen]) =
        .ok (Expr.Call "a" [], Token.Comma :: [Token.Ident "b", Token.RightParen]) ∧
      cur [Token.Ident "b", Token.RightParen] ≠ Token.LeftParen ∧
      cur [Token.Ident "b", Token.RightParen] ≠ Token.Comma ∧
      parse_call_args 6
          ([Token.Ident "a"] ++ Token.Comma :: [Token.Ident "b", Token.RightParen]) =
        parse_call_args 6 ([Token.Ident "a"] ++ [Token.Ident "b", Token.RightParen]) :=
  ⟨rfl, by decide, by decide,
    c6_theorem 5 [Token.Ident "a"] [Token.Ident "b", Token.RightParen]
      (Expr.Call "a" []) rfl (by decide) (by decide)⟩

/-- The fuel bounds used by `runParse` are sufficient: with fuel at least
nine times the stream length plus a per-function constant, no parser
function ever exhausts its fuel. -/
theorem parse_fuel_sufficient (n : Nat) :
    (∀ l : List Token, 9 * l.length + 2 ≤ n → parse_expr n l ≠ .oof) ∧
      (∀ l : List Token, 9 * l.length + 3 ≤ n → parse_call_args n l ≠ .oof) ∧
      (∀ l : List Token, 9 * l.length + 4 ≤ n → parse_lambda_params n l ≠ .oof) ∧
      (∀ l : List Token, 9 * l.length + 5 ≤ n → parse_lambda_style n l ≠ .oof) ∧
      (∀ l : List Token, 9 * l.length + 6 ≤ n → parse_function_body n l ≠ .oof) ∧
      (∀ l : List Token, 9 * l.length + 7 ≤ n → parse_function n l ≠ .oof) ∧
      (∀ l : List Token, 9 * l.length + 9 ≤ n → parse_block_items n l ≠ .oof) ∧
      (∀ l : List Token, 9 * l.length + 8 ≤ n → parse n l ≠ .oof) := by
  induction n with
  | zero =>
    refine ⟨?_, ?_, ?_, ?_, ?_, ?_, ?_, ?_⟩ <;> intro l hl <;> exact absurd hl (by omega)
  | succ n ih =>
    obtain ⟨ihE, ihA, ihP, ihL, ihB, ihF, ihI, ihG⟩ := ih
    have hE : ∀ l : List Token, 9 * l.length + 2 ≤ n + 1 → parse_expr (n + 1) l ≠ .oof := by
      intro l hl h
      rw [parse_expr] at h
      split at h
      · rename_i s hs
        have hnil : l ≠ [] := ne_nil_of_cur_ne_EOI l (by rw [hs]; simp)
        have hpos : 0 < l.length := List.length_pos.mpr hnil
        have hlen1 : l.tail.length = l.length - 1 := List.length_tail l
        have hlen2 : l.tail.tail.length = l.tail.length - 1 := List.length_tail l.tail
        split at h
        · split at h
          · split at h
            · exact Res.noConfusion h
            · exact Res.noConfusion h
          · exact Res.noConfusion h
          · rename_i hsub
            exact ihA _ (by omega) hsub
        · exact Res.noConfusion h
      · exact Res.noConfusion h
      · exact Res.noConfusion h
      · exact Res.noConfusion h
      · exact Res.noConfusion h
    have hA : ∀ l : List Token, 9 * l.length + 3 ≤ n + 1 → parse_call_args (n + 1) l ≠ .oof := by
      intro l hl h
      rw [parse_call_args] at h
      split at h
      · exact Res.noConfusion h
      · split at h
        · rename_i e1 l1 he
          have hm1 := (parse_measures n).1 _ _ _ he
          have h2 : (if cur l1 = Token.Comma then l1.tail else l1).length ≤ l1.length := by
            split
            · have := List.length_tail l1
              omega
            · exact Nat.le_refl _
          split at h
          · exact Res.noConfusion h
          · exact Res.noConfusion h
          · rename_i hsub
            exact ihA _ (by omega) hsub
        · exact Res.noConfusion h
        · rename_i hsub
          exact ihE _ (by omega) hsub
    have hP : ∀ l : List Token, 9 * l.length + 4 ≤ n + 1 →
        parse_lambda_params (n + 1) l ≠ .oof := by
      intro l hl h
      rw [parse_lambda_params] at h
      split at h
      · exact Res.noConfusion h
      · rename_i name l1 hident
        obtain ⟨hcur1, rfl⟩ := parse_ident_eq_some _ _ _ hident
        have hnil : l ≠ [] := ne_nil_of_cur_ne_EOI l (by rw [hcur1]; simp)
        have hpos : 0 < l.length := List.length_pos.mpr hnil
        have hlen1 : l.tail.length = l.length - 1 := List.length_tail l
        split at h
        · exact Res.noConfusion h
        · rename_i l2 hexp
          obtain ⟨hcur2, rfl⟩ := expect_eq_some _ _ _ hexp
          have hnil2 : l.tail ≠ [] := ne_nil_of_cur_ne_EOI l.tail (by rw [hcur2]; simp)
          have hpos2 : 0 < l.tail.length := List.length_pos.mpr hnil2
          have hlen2 : l.tail.tail.length = l.tail.length - 1 := List.length_tail l.tail
          split at h
          · exact Res.noConfusion h
          · rename_i ty l3 hty
            obtain ⟨hcur3, rfl⟩ := parse_type_eq_some _ _ _ hty
            have hnil3 : l.tail.tail ≠ [] := ne_nil_of_cur_ne_EOI l.tail.tail hcur3
            have hpos3 : 0 < l.tail.tail.length := List.length_pos.mpr hnil3
            have hlen3 : l.tail.tail.tail.length = l.tail.tail.length - 1 :=
              List.length_tail l.tail.tail
            have hlen4 : l.tail.tail.tail.tail.length = l.tail.tail.tail.length - 1 :=
              List.length_tail l.tail.tail.tail
            split at h
            · split at h
              · exact Res.noConfusion h
              · exact Res.noConfusion h
              · rename_i hsub
                exact ihP _ (by omega) hsub
            · exact Res.noConfusion h
            · exact Res.noConfusion h
    have hL : ∀ l : List Token, 9 * l.length + 5 ≤ n + 1 →
        parse_lambda_style (n + 1) l ≠ .oof := by
      intro l hl h
      rw [parse_lambda_style] at h
      split at h
      · rename_i ps l1 hps
        have hm1 := (parse_measures n).2.2.1 _ _ _ hps
        split at h
        · exact Res.noConfusion h
        · rename_i l2 hexp
          obtain ⟨hcur2, rfl⟩ := expect_eq_some _ _ _ hexp
          have hlen2 : l1.tail.length = l1.length - 1 := List.length_tail l1
          split at h
          · exact Res.noConfusion h
          · exact Res.noConfusion h
          · rename_i hsub
            exact ihE _ (by omega) hsub
      · exact Res.noConfusion h
      · rename_i hsub
        exact ihP _ (by omega) hsub
    have hB : ∀ l : List Token, 9 * l.length + 6 ≤ n + 1 →
        parse_function_body (n + 1) l ≠ .oof := by
      intro l hl h
      rw [parse_function_body] at h
      split at h
      · exact ihL l (by omega) h
      · split at h
        · exact Res.noConfusion h
        · exact Res.noConfusion h
        · exact Res.noConfusion h
        · split at h
          · exact Res.noConfusion h
          · rename_i l1 hexp
            obtain ⟨hcur1, rfl⟩ := expect_eq_some _ _ _ hexp
            have hnil : l ≠ [] := ne_nil_of_cur_ne_EOI l (by rw [hcur1]; simp)
            have hpos : 0 < l.length := List.length_pos.mpr hnil
            have hlen1 : l.tail.length = l.length - 1 := List.length_tail l
            split at h
            · split at h
              · exact Res.noConfusion h
              · exact Res.noConfusion h
            · exact Res.noConfusion h
            · rename_i hsub
              exact ihI l.tail (by omega) hsub
        · split at h
          · exact Res.noConfusion h
          · exact Res.noConfusion h
          · rename_i hsub
            exact ihE l (by omega) hsub
    have hF : ∀ l : List Token, 9 * l.length + 7 ≤ n + 1 → parse_function (n + 1) l ≠ .oof := by
      intro l hl h
      rw [parse_function] at h
      split at h
      · exact Res.noConfusion h
      · rename_i name l2 hident
        obtain ⟨hcur2, rfl⟩ := parse_ident_eq_some _ _ _ hident
        have hlen1 : l.tail.length = l.length - 1 := List.length_tail l
        have hlen2 : l.tail.tail.length = l.tail.length - 1 := List.length_tail l.tail
        split at h
        · exact Res.noConfusion h
        · rename_i l3 hexp
          obtain ⟨hcur3, rfl⟩ := expect_eq_some _ _ _ hexp
          have hlen3 : l.tail.tail.tail.length = l.tail.tail.length - 1 :=
            List.length_tail l.tail.tail
          split at h
          · split at h
            · exact Res.noConfusion h
            · exact Res.noConfusion h
          · exact Res.noConfusion h
          · rename_i hsub
            exact ihB _ (by omega) hsub
    have hI : ∀ l : List Token, 9 * l.length + 9 ≤ n + 1 →
        parse_block_items (n + 1) l ≠ .oof := by
      intro l hl h
      rw [parse_block_items] at h
      split at h
      · exact Res.noConfusion h
      · split at h
        · split at h
          · rename_i f l1 hf
            have hm1 := (parse_measures n).2.2.2.2.2.1 _ _ _ hf
            split at h
            · exact Res.noConfusion h
            · exact Res.noConfusion h
            · rename_i hsub
              exact ihI _ (by omega) hsub
          · exact Res.noConfusion h
          · rename_i hsub
            exact ihF _ (by omega) hsub
        · split at h
          · rename_i e1 l1 he
            have hm1 := (parse_measures n).1 _ _ _ he
            split at h
            · exact Res.noConfusion h
            · exact Res.noConfusion h
            · rename_i hsub
              exact ihI _ (by omega) hsub
          · exact Res.noConfusion h
          · rename_i hsub
            exact ihE _ (by omega) hsub
    have hG : ∀ l : List Token, 9 * l.length + 8 ≤ n + 1 → parse (n + 1) l ≠ .oof := by
      intro l hl h
      rw [parse] at h
      split at h
      · exact Res.noConfusion h
      · split at h
        · rename_i f l1 hf
          have hm1 := (parse_measures n).2.2.2.2.2.1 _ _ _ hf
          cases hp : parse n l1 with
          | ok fs =>
            rw [hp] at h
            simp at h
          | err =>
            rw [hp] at h
            simp at h
          | oof => exact ihG l1 (by omega) hp
        · exact Res.noConfusion h
        · rename_i hsub
          exact ihF _ (by omega) hsub
    exact ⟨hE, hA, hP, hL, hB, hF, hI, hG⟩

/-- The tokenizing loop never exhausts its fuel when given one unit more
than the number of unread characters: every non-sentinel token consumes at
least one character. -/
theorem tokenizeGo_not_oof (f : Nat) (st : Lexer)
    (hf : st.input.length - st.position < f) : tokenizeGo f st ≠ .oof := by
  induction f generalizing st with
  | zero => exact absurd hf (by omega)
  | succ f ih =>
    rw [tokenizeGo]
    split
    · simp
    · simp
    · rename_i hover hdisc
      rename_i t st1
      have hprog := next_token_progress st t st1 hdisc hover
      have hinp := next_token_input st t st1 hdisc
      have hlt : st.position < st.input.length := by
        rcases next_token_cases st t st1 hdisc with ⟨hEOI, -, -⟩ | ⟨hlt2, -, -⟩
        · exact absurd hEOI hover
        · have h3 := skip_whitespace_pos_le st
          have h4 := skip_whitespace_input st
          rw [h4] at hlt2
          omega
      have hf1 : st1.input.length - st1.position < f := by
        rw [hinp]
        omega
      have h2 := ih st1 hf1
      cases htg : tokenizeGo f st1 with
      | ok ts => simp
      | err => simp
      | oof => exact absurd htg h2

/-- C10: a non-sentinel token strictly advances the lexer cursor, and the
whole pipeline never exhausts its (finite) fuel on any input: `parse()`
terminates with an AST or an error on every finite source. -/
theorem c10_theorem :
    (∀ st t st', next_token st = some (t, st') → t ≠ Token.EOI →
      st.position < st'.position) ∧
      ∀ s : String, runParse s ≠ .oof := by
  constructor
  · exact next_token_progress
  · intro s
    unfold runParse
    cases htok : tokenize s with
    | ok ts =>
      exact (parse_fuel_sufficient (parseFuel ts)).2.2.2.2.2.2.2 ts
        (by unfold parseFuel; omega)
    | err => simp
    | oof =>
      exfalso
      unfold tokenize at htok
      exact tokenizeGo_not_oof _ _ (by simp [mkLexer]) htok

/-- C10 witness: lexing `x` advances the cursor from 0 to 1, and the parse
of `let x = 5` does not run out of fuel. -/
theorem c10_witness :
    (mkLexer "x").position < (Lexer.mk ['x'] 1 1 2).position ∧
      runParse "let x = 5" ≠ .oof :=
  ⟨c10_theorem.1 (mkLexer "x") (Token.Ident "x") (Lexer.mk ['x'] 1 1 2) rfl (by decide),
    c10_theorem.2 "let x = 5"⟩

end Hroma
